import Mathlib

/-!
Verification of the MAA-ERP hierarchical tree engine.

This file shallow-embeds the core of the repository:
* `Designer` — the designer tree-state hook (`payanarsstype-designer/src/hooks/useTreeState.ts`):
  nested-children trees, `removeNode`, `findNode`, `moveNode`, and the snapshot
  undo/redo history.
* `Importer` — the import pipeline (`payanarsstype-designer/src/utils/payanarssTypeImportUtils.ts`):
  raw-JSON schema validation, id regeneration, flattening, orphan and duplicate
  detection, and the main import handler.
* `MaaErp` — the flat-store hierarchy index and navigator
  (`maa-erp/src/utils/hierarchyBuilder.ts`, `maa-erp/src/hooks/useBusinessSetup.ts`).

JavaScript `Map`s are embedded as lookup functions or association lists,
recursion that is unbounded in the source (and can actually diverge on cyclic
stores) is embedded with an explicit fuel argument returning `Option`/`none`
when the fuel runs out, and `uuidv4()` is embedded as a deterministic fresh-id
supply (only freshness, never the random values, is relevant to the claims).
-/

namespace Designer

/-- A node of the designer tree (`PTNode` in `src/types.ts`): nested `children`
form the hierarchy.  Presentation-only fields (level, icon, color, code,
typeCategory, description) do not influence any of the verified operations and
are represented by `name`; `expanded` is kept because `moveNode` writes it. -/
structure PTNode where
  id : String
  name : String
  expanded : Bool
  children : List PTNode
deriving Repr

/-- All ids of a forest in depth-first preorder. -/
def forestIds : List PTNode → List String
  | [] => []
  | ⟨i, _, _, cs⟩ :: rest => i :: (forestIds cs ++ forestIds rest)

/-- `findNode(nodes, id)`: first node with the given id in depth-first preorder. -/
def findNode : List PTNode → String → Option PTNode
  | [], _ => none
  | ⟨ni, nm, e, cs⟩ :: rest, i =>
    if ni = i then some ⟨ni, nm, e, cs⟩
    else
      match findNode cs i with
      | some r => some r
      | none => findNode rest i

/-- The recursive filter inside `removeNode`: removes every node whose id
matches, without descending into removed subtrees; `acc` carries the `removed`
variable (last assignment wins, exactly as in the source). -/
def removeNodeGo (targetId : String) : List PTNode → Option PTNode → List PTNode × Option PTNode
  | [], acc => ([], acc)
  | ⟨ni, nm, e, cs⟩ :: rest, acc =>
    if ni = targetId then removeNodeGo targetId rest (some ⟨ni, nm, e, cs⟩)
    else
      let (cs1, acc1) := removeNodeGo targetId cs acc
      let (rs, acc2) := removeNodeGo targetId rest acc1
      (⟨ni, nm, e, cs1⟩ :: rs, acc2)

/-- `removeNode(nodes, id)` returning `{tree, removed}`. -/
def removeNode (nodes : List PTNode) (id : String) : List PTNode × Option PTNode :=
  removeNodeGo id nodes none

/-- Drop position of a drag-and-drop move. -/
inductive Pos where
  | before
  | after
  | inside
deriving DecidableEq, Repr

/-- The `position === "inside"` branch of `moveNode`: `findNode(newRoot, dropId)`
followed by an in-place push onto the drop node's children (first preorder
occurrence, as `findNode` finds it).  `none` when the drop id is absent. -/
def pushChildAt (dropId : String) (removed : PTNode) : List PTNode → Option (List PTNode)
  | [] => none
  | ⟨ni, nm, e, cs⟩ :: rest =>
    if ni = dropId then
      some (⟨ni, nm, true, cs ++ [removed]⟩ :: rest)
    else
      match pushChildAt dropId removed cs with
      | some cs1 => some (⟨ni, nm, e, cs1⟩ :: rest)
      | none => (pushChildAt dropId removed rest).map (⟨ni, nm, e, cs⟩ :: ·)

/-- The before/after branches of `moveNode` when the drop id is present:
`findParent` locates the parent of the first preorder occurrence of `dropId`,
and `siblings.splice(idx or idx+1, 0, removed)` inserts next to that occurrence.
Embedded as one walk: `none` when the drop id is absent from the forest. -/
def insertNear (dropId : String) (removed : PTNode) (position : Pos) : List PTNode → Option (List PTNode)
  | [] => none
  | ⟨ni, nm, e, cs⟩ :: rest =>
    if ni = dropId then
      some (if position = Pos.before then removed :: ⟨ni, nm, e, cs⟩ :: rest
            else ⟨ni, nm, e, cs⟩ :: removed :: rest)
    else
      match insertNear dropId removed position cs with
      | some cs1 => some (⟨ni, nm, e, cs1⟩ :: rest)
      | none => (insertNear dropId removed position rest).map (⟨ni, nm, e, cs⟩ :: ·)

/-- When `dropId` is absent after the removal, `findParent` yields null, so the
source splices into the root list at `findIndex = -1`: JavaScript
`splice(-1, 0, x)` inserts before the last element, `splice(0, 0, x)` at the
front. -/
def spliceAtNegOne (l : List PTNode) (x : PTNode) : List PTNode :=
  l.take (l.length - 1) ++ x :: l.drop (l.length - 1)

/-- `moveNode(dragId, dropId, position)` from
`payanarsstype-designer/src/hooks/useTreeState.ts` (the only guard in the
source is `dragId === dropId`; early `return`s leave the store unchanged, so
they are embedded as returning the input forest). -/
def moveNode (root : List PTNode) (dragId dropId : String) (position : Pos) : List PTNode :=
  if dragId = dropId then root
  else
    match removeNode root dragId with
    | (_, none) => root
    | (tree, some removed) =>
      match position with
      | Pos.inside =>
        match pushChildAt dropId removed tree with
        | none => root
        | some tree2 => tree2
      | _ =>
        match insertNear dropId removed position tree with
        | some tree2 => tree2
        | none =>
          if position = Pos.before then spliceAtNegOne tree removed
          else removed :: tree

/-- The ids of the strict descendants of the (first) node carrying `dragId`;
empty when `dragId` is absent. -/
def subtreeIds (root : List PTNode) (dragId : String) : List String :=
  match findNode root dragId with
  | some dn => forestIds dn.children
  | none => []

/-- The tree-state store with its snapshot history
(`historyRef`/`historyIdxRef` in `useTreeState`). -/
structure TreeState where
  root : List PTNode
  history : List (List PTNode)
  idx : Nat

/-- `loadTree(data)`: installs a store and resets the history to one snapshot. -/
def loadTree (data : List PTNode) : TreeState :=
  { root := data, history := [data], idx := 0 }

/-- `updateRoot(newRoot)` = `setRoot` + `pushHistory`: truncate the redo tail,
push a snapshot, trim the oldest entry when the bound of 50 is exceeded.  The
mutation `f` stands for any of the committed operations
(add/delete/duplicate/paste/move/update/import), all of which funnel through
`updateRoot`. -/
def commit (s : TreeState) (f : List PTNode → List PTNode) : TreeState :=
  let newRoot := f s.root
  let h1 := s.history.take (s.idx + 1) ++ [newRoot]
  let h2 := if 50 < h1.length then h1.drop 1 else h1
  { root := newRoot, history := h2, idx := h2.length - 1 }

/-- `undo()`: step the index back and swap the live store for that snapshot;
no-op at the start of history.  No history entry is pushed. -/
def undo (s : TreeState) : TreeState :=
  if s.idx = 0 then s
  else { s with idx := s.idx - 1, root := (s.history[s.idx - 1]?).getD s.root }

/-- `redo()`: step the index forward and swap the live store for that snapshot;
no-op at the end of history.  No history entry is pushed. -/
def redo (s : TreeState) : TreeState :=
  if s.history.length - 1 ≤ s.idx then s
  else { s with idx := s.idx + 1, root := (s.history[s.idx + 1]?).getD s.root }

/-- `deleteNode(id)`: committed removal of a whole subtree. -/
def deleteNode (s : TreeState) (id : String) : TreeState :=
  commit s (fun r => (removeNode r id).1)

/-- Well-formedness of a tree state: the index is inside the history, the
indexed snapshot is the live store, and the history respects the 50-snapshot
bound.  Holds for `loadTree` and is preserved by `commit`, `undo` and `redo`. -/
def Reachable (s : TreeState) : Prop :=
  s.history.length ≤ 50 ∧ s.idx < s.history.length ∧ s.history[s.idx]? = some s.root

end Designer

namespace Importer

mutual

/-- A parsed JSON value, the input of the import pipeline after `JSON.parse`
(so `undefined` cannot occur; `null` can).  Arrays and objects carry their own
list types (`JonList`, `JonFields`) so that every traversal below is plain
structural recursion, exactly like the JavaScript recursion it embeds. -/
inductive Jon where
  | null
  | bool (b : Bool)
  | num (n : Int)
  | str (s : String)
  | arr (xs : JonList)
  | obj (fields : JonFields)

/-- A JSON array: a list of values. -/
inductive JonList where
  | nil
  | cons (j : Jon) (rest : JonList)

/-- A JSON object: an ordered list of key/value pairs (keys unique after
parsing). -/
inductive JonFields where
  | nil
  | cons (k : String) (v : Jon) (rest : JonFields)

end

/-- Length of a JSON array. -/
def JonList.length : JonList → Nat
  | JonList.nil => 0
  | JonList.cons _ rest => 1 + rest.length

/-- First value bound to a key in an object (JSON objects after parsing have
unique keys, so first = only). -/
def lookupField : JonFields → String → Option Jon
  | JonFields.nil, _ => none
  | JonFields.cons k v rest, key => if k = key then some v else lookupField rest key

/-- `field in node && node[field] !== undefined && node[field] !== null`. -/
def fieldPresent (fields : JonFields) (key : String) : Bool :=
  match lookupField fields key with
  | none => false
  | some Jon.null => false
  | some _ => true

/-- `typeof node[field] === "string"` together with the string value. -/
def fieldString (fields : JonFields) (key : String) : Option String :=
  match lookupField fields key with
  | some (Jon.str s) => some s
  | _ => none

mutual

/-- `validateNode(node, path)` from `payanarssTypeImportUtils.ts`: returns the
collected error messages for one node and, recursively, its `Children`.  The
`Children` recursion (`lookupField`, then recurse when the value is an array)
is fused into `childrenErrors`, which walks the field list to its first
`Children` key. -/
def validateNode : Jon → String → List String
  | Jon.obj fields, path =>
    (if fieldPresent fields "Id" then [] else [path ++ ": Missing required field \"Id\"."]) ++
    (if fieldPresent fields "Name" then [] else [path ++ ": Missing required field \"Name\"."]) ++
    (if fieldPresent fields "Type" then [] else [path ++ ": Missing required field \"Type\"."]) ++
    (match fieldString fields "Name" with
     | some s => if s.trim.length = 0 then [path ++ ": \"Name\" cannot be empty."] else []
     | none => []) ++
    (match fieldString fields "Type" with
     | some s => if s.trim.length = 0 then [path ++ ": \"Type\" cannot be empty."] else []
     | none => []) ++
    childrenErrors fields path
  | _, path => [path ++ ": Expected an object."]

/-- The `"Children" in node` branch of `validateNode`: error when the first
`Children` value is not an array, recursive validation when it is, nothing
when the key is absent. -/
def childrenErrors : JonFields → String → List String
  | JonFields.nil, _ => []
  | JonFields.cons k v rest, path =>
    if k = "Children" then
      match v with
      | Jon.arr xs => validateChildren xs path 0
      | _ => [path ++ ": \"Children\" must be an array."]
    else childrenErrors rest path

/-- `node.Children.forEach((child, index) => ... validateNode(child, childPath))`. -/
def validateChildren : JonList → String → Nat → List String
  | JonList.nil, _, _ => []
  | JonList.cons c rest, path, i =>
    validateNode c (path ++ ".Children[" ++ toString i ++ "]") ++
      validateChildren rest path (i + 1)

end

/-- `Array.isArray(data) ? data : [data]` — normalize a parsed document to a
list of root nodes. -/
def normalizeInput : Jon → JonList
  | Jon.arr xs => xs
  | j => JonList.cons j JonList.nil

mutual

/-- `countNodes(nodes)` (the large-import counter): `count += 1` per node and
recursion into `node.Children` when it is an array.  On a non-null non-object
node the member access `node.Children` yields `undefined` (not an array); on
`null` the access throws a `TypeError`, modelled as `Except.error ()`. -/
def countNodesE : JonList → Except Unit Nat
  | JonList.nil => Except.ok 0
  | JonList.cons Jon.null _ => Except.error ()
  | JonList.cons (Jon.obj fields) rest =>
    match countChildrenOf fields, countNodesE rest with
    | Except.ok a, Except.ok b => Except.ok (1 + a + b)
    | Except.error e, _ => Except.error e
    | _, Except.error e => Except.error e
  | JonList.cons _ rest =>
    match countNodesE rest with
    | Except.ok b => Except.ok (1 + b)
    | Except.error e => Except.error e

/-- The `Array.isArray(node.Children)` recursion of `countNodes`, walking the
field list to its first `Children` key (= `lookupField`). -/
def countChildrenOf : JonFields → Except Unit Nat
  | JonFields.nil => Except.ok 0
  | JonFields.cons k v rest =>
    if k = "Children" then
      match v with
      | Jon.arr xs => countNodesE xs
      | _ => Except.ok 0
    else countChildrenOf rest

end

/-- The result record of `validateImportData`. -/
structure ValidationResult where
  isValid : Bool
  errors : List String
  warnings : List String
deriving Repr

/-- Per-root `Root[i]` validation of `validateImportData`. -/
def validateRoots : JonList → Nat → List String
  | JonList.nil, _ => []
  | JonList.cons j rest, i =>
    validateNode j ("Root[" ++ toString i ++ "]") ++ validateRoots rest (i + 1)

/-- `validateImportData(data)`: wrap a single object, reject an empty list,
collect every node's errors, and compute the large-import warning.  The
warning pass calls `countNodes`, which throws on a `null` node, so the whole
function is `Except`-valued. -/
def validateImportDataE (data : Jon) : Except Unit ValidationResult :=
  let nodes := normalizeInput data
  if nodes.length = 0 then
    Except.ok { isValid := false, errors := ["Import file contains no data."], warnings := [] }
  else
    let errors := validateRoots nodes 0
    match countNodesE nodes with
    | Except.error e => Except.error e
    | Except.ok totalCount =>
      Except.ok
        { isValid := errors.length = 0
          errors := errors
          warnings :=
            if 500 < totalCount then
              ["Large import detected (" ++ toString totalCount ++ " nodes). This may take a moment."]
            else [] }

mutual

/-- Defect counter for the refinement statement of the validation claim: one
defect per missing `Id`/`Name`/`Type`, per empty `Name`/`Type`, per non-array
`Children` value, and one for a node that is not an object at all, counted
over the whole nested input — the defects the claim enumerates, without the
error messages. -/
def defectCount : Jon → Nat
  | Jon.obj fields =>
    (if fieldPresent fields "Id" then 0 else 1) +
    ((if fieldPresent fields "Name" then 0 else 1) +
    ((if fieldPresent fields "Type" then 0 else 1) +
    ((match fieldString fields "Name" with
      | some s => if s.trim.length = 0 then 1 else 0
      | none => 0) +
    ((match fieldString fields "Type" with
      | some s => if s.trim.length = 0 then 1 else 0
      | none => 0) +
    childrenDefects fields))))
  | _ => 1

/-- Defects contributed by the first `Children` field of an object. -/
def childrenDefects : JonFields → Nat
  | JonFields.nil => 0
  | JonFields.cons k v rest =>
    if k = "Children" then
      match v with
      | Jon.arr xs => defectsOfList xs
      | _ => 1
    else childrenDefects rest

/-- Total defects of a list of nodes. -/
def defectsOfList : JonList → Nat
  | JonList.nil => 0
  | JonList.cons j rest => defectCount j + defectsOfList rest

end

/-- Total defects of a parsed document after normalization. -/
def totalDefects (data : Jon) : Nat :=
  defectsOfList (normalizeInput data)

/-- A typed import node: the schema the validator enforces (`Id`, `Name`,
`Type` — `Type` is spelled `TypeRef` because `Type` is a Lean keyword — and a
nested `Children` array).  The transformation stages read exactly these
fields. -/
structure PTreeNode where
  Id : String
  Name : String
  TypeRef : String
  Children : List PTreeNode
deriving Repr

/-- A flat transformed record (a `PayanarssType` with its `Children` stripped,
as produced by `flattenAndTransform`). -/
structure PTRecord where
  Id : String
  Name : String
  TypeRef : String
  ParentId : Option String
deriving DecidableEq, Repr

/-- The deterministic embedding of `uuidv4()`: the k-th generated id. -/
def freshId (k : Nat) : String :=
  "imported-" ++ toString k

/-- The traversal inside `buildIdMap`: `idMap.set(node.Id, uuidv4())` for each
node, recursing into non-empty `Children`; the counter is the uuid supply, the
map is a lookup function (later `set` wins, as for a JS `Map`). -/
def buildIdMapGo : List PTreeNode → Nat → (String → Option String) → Nat × (String → Option String)
  | [], c, m => (c, m)
  | ⟨i, _, _, cs⟩ :: rest, c, m =>
    let m1 := fun x => if x = i then some (freshId c) else m x
    let (c1, m2) := if 0 < cs.length then buildIdMapGo cs (c + 1) m1 else (c + 1, m1)
    buildIdMapGo rest c1 m2

/-- `buildIdMap(nodes)`: old id → freshly generated id. -/
def buildIdMap (nodes : List PTreeNode) : String → Option String :=
  (buildIdMapGo nodes 0 (fun _ => none)).2

/-- The traversal inside `flattenAndTransform`: emit the node with its new id
and re-linked parent, then its subtree (children re-parented to the new id),
then the remaining siblings.  `idMap.get(node.Id)!` is embedded with a `getD`
default that is never relevant because `buildIdMap` visits the same nodes. -/
def flattenGo (idMap : String → Option String) : List PTreeNode → String → List PTRecord
  | [], _ => []
  | ⟨i, nm, ty, cs⟩ :: rest, parentId =>
    let newId := (idMap i).getD ""
    { Id := newId, Name := nm, TypeRef := ty, ParentId := some parentId }
      :: ((if 0 < cs.length then flattenGo idMap cs newId else []) ++ flattenGo idMap rest parentId)

/-- `flattenAndTransform(nodes, selectedParentId, idMap)`. -/
def flattenAndTransform (nodes : List PTreeNode) (selectedParentId : String)
    (idMap : String → Option String) : List PTRecord :=
  flattenGo idMap nodes selectedParentId

/-- `buildSignature(record)`: `name.trim().toLowerCase()|type.trim().toLowerCase()|parentId`
(a `null` parent prints as the string `"null"` in the template literal). -/
def buildSignature (r : PTRecord) : String :=
  r.Name.trim.toLower ++ "|" ++ r.TypeRef.trim.toLower ++ "|" ++
    (match r.ParentId with
     | some p => p
     | none => "null")

/-- The loop of `detectDuplicates`: `batch` is the set of signatures of records
already classified unique in this batch (membership is all that is used of the
JS `Set`). -/
def detectDupGo (existingSigs : List String) : List PTRecord → List String → List PTRecord × List PTRecord
  | [], _ => ([], [])
  | r :: rest, batch =>
    let s := buildSignature r
    if s ∈ existingSigs ∨ s ∈ batch then
      let (d, u) := detectDupGo existingSigs rest batch
      (r :: d, u)
    else
      let (d, u) := detectDupGo existingSigs rest (s :: batch)
      (d, r :: u)

/-- `detectDuplicates(importedRecords, existingRecords)` returning
`(duplicates, unique)`. -/
def detectDuplicates (importedRecords existingRecords : List PTRecord) : List PTRecord × List PTRecord :=
  detectDupGo (existingRecords.map buildSignature) importedRecords []

/-- `detectOrphans(records, selectedParentId)`: records whose non-null
`ParentId` is neither the attachment point nor another record's id. -/
def detectOrphans (records : List PTRecord) (selectedParentId : String) : List PTRecord :=
  let allIds := selectedParentId :: records.map (·.Id)
  records.filter fun r =>
    match r.ParentId with
    | none => false
    | some q => decide (q ∉ allIds)

/-- The result record of `handlePayanarssTypeImport`. -/
structure ImportResult where
  success : Bool
  importedCount : Nat
  records : List PTRecord
  errors : List String
  warnings : List String
deriving DecidableEq, Repr

/-- The duplicate warning message pushed by the handler. -/
def dupWarning (duplicates : List PTRecord) : String :=
  toString duplicates.length ++ " duplicate(s) skipped: " ++
    String.intercalate ", " (duplicates.map fun d => "\"" ++ d.Name ++ "\"")

/-- The orphan abort message pushed by the handler. -/
def orphanError (orphans : List PTRecord) : String :=
  "Data integrity error: " ++ toString orphans.length ++ " orphan node(s) detected. Nodes: " ++
    String.intercalate ", " (orphans.map fun o => "\"" ++ o.Name ++ "\"") ++ ". Import aborted."

/-- Steps 6–7 of `handlePayanarssTypeImport`: duplicate detection, warning,
whole-batch-duplicate rejection, and the success result. -/
def dupPhase (transformedRecords existingRecords : List PTRecord) (warnings0 : List String) : ImportResult :=
  let (duplicates, unique) := detectDuplicates transformedRecords existingRecords
  let warnings1 := warnings0 ++ (if 0 < duplicates.length then [dupWarning duplicates] else [])
  if unique.length = 0 then
    { success := false, importedCount := 0, records := []
      errors := ["All records in the file are duplicates. Nothing to import."]
      warnings := warnings1 }
  else
    { success := true, importedCount := unique.length, records := unique
      errors := [], warnings := warnings1 }

/-- Steps 3–7 of `handlePayanarssTypeImport` (after parsing and validation):
id regeneration, flattening, the orphan safety check, then `dupPhase`.
`warnings0` carries the warnings accumulated by validation. -/
def importSteps (sourceNodes : List PTreeNode) (selectedParentId : String)
    (existingRecords : List PTRecord) (warnings0 : List String) : ImportResult :=
  let idMap := buildIdMap sourceNodes
  let transformedRecords := flattenAndTransform sourceNodes selectedParentId idMap
  let orphans := detectOrphans transformedRecords selectedParentId
  if 0 < orphans.length then
    { success := false, importedCount := 0, records := []
      errors := [orphanError orphans], warnings := warnings0 }
  else dupPhase transformedRecords existingRecords warnings0

/-- First `Children` array of an object's field list (empty otherwise). -/
def childArr : JonFields → JonList
  | JonFields.nil => JonList.nil
  | JonFields.cons k v rest =>
    if k = "Children" then
      match v with
      | Jon.arr xs => xs
      | _ => JonList.nil
    else childArr rest

/-- String value of a field, defaulting to `""`. -/
def jonStr (fields : JonFields) (key : String) : String :=
  match lookupField fields key with
  | some (Jon.str s) => s
  | _ => ""

mutual

/-- Typed reading of a validated node (used only to feed the typed pipeline
from the raw document in `importFromData`). -/
def jonToNode : Jon → PTreeNode
  | Jon.obj fields =>
    { Id := jonStr fields "Id", Name := jonStr fields "Name", TypeRef := jonStr fields "Type"
      Children := jonForestOfFields fields }
  | _ => { Id := "", Name := "", TypeRef := "", Children := [] }

/-- Typed reading of an object's `Children` array. -/
def jonForestOfFields : JonFields → List PTreeNode
  | JonFields.nil => []
  | JonFields.cons k v rest =>
    if k = "Children" then
      match v with
      | Jon.arr xs => jonForest xs
      | _ => []
    else jonForestOfFields rest

/-- Typed reading of a JSON array of nodes. -/
def jonForest : JonList → List PTreeNode
  | JonList.nil => []
  | JonList.cons j rest => jonToNode j :: jonForest rest

end

/-- `handlePayanarssTypeImport` from step 2 on (step 1, the file read and
JSON parse, is outside the engine): validation gate, then the transformation
steps on the normalized nodes.  `Except.error` is the `TypeError` escaping
from `countNodes` (the handler does not catch it). -/
def importFromData (data : Jon) (selectedParentId : String) (existingRecords : List PTRecord) :
    Except Unit ImportResult :=
  match validateImportDataE data with
  | Except.error e => Except.error e
  | Except.ok validation =>
    if validation.isValid = false then
      Except.ok
        { success := false, importedCount := 0, records := []
          errors := validation.errors, warnings := validation.warnings }
    else
      Except.ok
        (importSteps (jonForest (normalizeInput data)) selectedParentId existingRecords
          validation.warnings)

mutual

/-- Schema validity of a typed node: non-empty trimmed `Name` and `Type`,
recursively (what `validateNode` checks on the typed image of the data). -/
def validNode : PTreeNode → Bool
  | ⟨_, nm, ty, cs⟩ => !(nm.trim.length = 0) && (!(ty.trim.length = 0) && validForest cs)

/-- Schema validity of a typed forest. -/
def validForest : List PTreeNode → Bool
  | [] => true
  | n :: rest => validNode n && validForest rest

end

end Importer

namespace MaaErp

/-- A flat catalog record (`PayanarssType` in `maa-erp/src/types/PayanarssType.ts`);
hierarchy is encoded by `Id`/`ParentId` only.  `PayanarssTypeId` is the type
reference; `Name`/`Description` feed search and display. -/
structure PayanarssType where
  Id : String
  ParentId : String
  Name : String
  PayanarssTypeId : String
  Description : Option String
deriving DecidableEq, Repr

/-- Pass 1 of `buildHierarchyIndex`: `byId.set(t.Id, t)` over the array, a map
embedded as a lookup function (later `set` wins). -/
def pass1 (types : List PayanarssType) : String → Option PayanarssType :=
  types.foldl (fun m t => fun i => if i = t.Id then some t else m i) (fun _ => none)

/-- One iteration of Pass 2 of `buildHierarchyIndex`: a self-referencing node
is pushed onto `roots`, any other node is appended to its parent's children
list. -/
def pass2Step (acc : (String → List PayanarssType) × List PayanarssType) (t : PayanarssType) :
    (String → List PayanarssType) × List PayanarssType :=
  if t.Id = t.ParentId then (acc.1, acc.2 ++ [t])
  else ((fun p => if p = t.ParentId then acc.1 p ++ [t] else acc.1 p), acc.2)

/-- Pass 2 of `buildHierarchyIndex`: group children by `ParentId` (appending in
array order) and collect self-referencing roots.  The children map is embedded
as a total function whose default is the empty list (exactly what every reader
observes through `childrenOf.get(p) || []`). -/
def pass2 (types : List PayanarssType) : (String → List PayanarssType) × List PayanarssType :=
  types.foldl pass2Step ((fun _ => []), [])

/-- The memo table of Pass 3 (`descendantCount` map): an association list where
an earlier entry wins on lookup and `insert` prepends. -/
def memoLookup (memo : List (String × Nat)) (i : String) : Option Nat :=
  match memo with
  | [] => none
  | (k, v) :: rest => if k = i then some v else memoLookup rest i

/-- `descendantCount.set(nodeId, count)`. -/
def memoInsert (memo : List (String × Nat)) (i : String) (v : Nat) : List (String × Nat) :=
  (i, v) :: memo

mutual

/-- `countDescendants(nodeId)` of Pass 3: memo lookup, then
`children.length + Σ countDescendants(child.Id)`, then memo insert.  The
source recursion has no termination guarantee on a cyclic store, so the
embedding carries fuel and returns `none` when it runs out — `none` for every
fuel value is non-termination of the source. -/
def countDescendantsF (co : String → List PayanarssType) :
    Nat → List (String × Nat) → String → Option (Nat × List (String × Nat))
  | 0, _, _ => none
  | fuel + 1, memo, nodeId =>
    match memoLookup memo nodeId with
    | some c => some (c, memo)
    | none =>
      let children := co nodeId
      match countChildrenSum co fuel memo children with
      | none => none
      | some (s, memo1) =>
        let total := children.length + s
        some (total, memoInsert memo1 nodeId total)

/-- The `for (const child of children)` accumulation inside `countDescendants`,
threading the memo map left to right. -/
def countChildrenSum (co : String → List PayanarssType) :
    Nat → List (String × Nat) → List PayanarssType → Option (Nat × List (String × Nat))
  | _, memo, [] => some (0, memo)
  | fuel, memo, c :: cs =>
    match countDescendantsF co fuel memo c.Id with
    | none => none
    | some (k, memo1) =>
      match countChildrenSum co fuel memo1 cs with
      | none => none
      | some (rest, memo2) => some (k + rest, memo2)

end

/-- Pass 3: `for (const t of types) countDescendants(t.Id)`, threading the
shared memo map; `none` as soon as one traversal runs out of fuel. -/
def pass3 (co : String → List PayanarssType) (types : List PayanarssType) (fuel : Nat) :
    Option (List (String × Nat)) :=
  types.foldlM
    (fun memo t =>
      match countDescendantsF co fuel memo t.Id with
      | none => none
      | some (_, memo1) => some memo1)
    []

/-- The `HierarchyIndex` record.  `childrenOf` is total with default `[]`
(`getChildren` reads it through `|| []`); `descendantCount` keeps the map's
partiality. -/
structure HierarchyIndex where
  byId : String → Option PayanarssType
  childrenOf : String → List PayanarssType
  roots : List PayanarssType
  totalCount : Nat
  descendantCount : String → Option Nat

/-- `buildHierarchyIndex(types)` with explicit fuel for Pass 3. -/
def buildHierarchyIndexF (types : List PayanarssType) (fuel : Nat) : Option HierarchyIndex :=
  let byId := pass1 types
  let co := (pass2 types).1
  let roots := (pass2 types).2
  match pass3 co types fuel with
  | none => none
  | some memo =>
    some
      { byId := byId, childrenOf := co, roots := roots, totalCount := types.length
        descendantCount := fun i => memoLookup memo i }

/-- `getChildren(index, parentId)`. -/
def getChildren (index : HierarchyIndex) (parentId : String) : List PayanarssType :=
  index.childrenOf parentId

/-- `getAncestorPath(index, nodeId)`: the upward `while (currentId)` walk,
accumulating with `unshift` (front insertion) and stopping at a missing node
or a self-referencing root.  `currentId` is falsy exactly for the empty
string.  The source loop has no cycle guard, so the embedding carries fuel —
`none` for every fuel value is non-termination of the source. -/
def getAncestorPathF (byId : String → Option PayanarssType) :
    Nat → String → List PayanarssType → Option (List PayanarssType)
  | 0, _, _ => none
  | fuel + 1, currentId, path =>
    if currentId = "" then some path
    else
      match byId currentId with
      | none => some path
      | some node =>
        let path1 := node :: path
        if node.Id = node.ParentId then some path1
        else getAncestorPathF byId fuel node.ParentId path1

/-- `currentChildren` from `useBusinessSetup`: children of the top of the
navigation stack; at the top level, children of the single root, or the roots
themselves when there is not exactly one root.  The stack's top is its last
element (`navigationStack[navigationStack.length - 1]`). -/
def currentChildren (index : HierarchyIndex) (navigationStack : List String) : List PayanarssType :=
  match navigationStack.getLast? with
  | some topId => getChildren index topId
  | none =>
    match index.roots with
    | [r] => getChildren index r.Id
    | rs => rs

/-- The cyclic two-node store used to exercise the missing cycle guards:
`a.ParentId = "b"`, `b.ParentId = "a"`, both non-root. -/
def cycNodeA : PayanarssType :=
  { Id := "a", ParentId := "b", Name := "A", PayanarssTypeId := "t", Description := none }

/-- Second node of the cyclic store. -/
def cycNodeB : PayanarssType :=
  { Id := "b", ParentId := "a", Name := "B", PayanarssTypeId := "t", Description := none }

/-- The cyclic store itself. -/
def cycStore : List PayanarssType :=
  [cycNodeA, cycNodeB]

/-- Specification-side node lookup: the first store element with the given
`Id` (with unique ids, the only one). -/
def findById (types : List PayanarssType) (i : String) : Option PayanarssType :=
  types.find? (fun t => decide (t.Id = i))

/-- Specification-side strict-ancestor chain of a node: the ids of its parent,
grandparent, … up to (and including) the first self-referencing root or
dangling parent reference, with fuel.  On an acyclic store the chain is stable
once the fuel reaches the node's depth, so `n` is a strict ancestor of `m`
exactly when `n.Id ∈ chainF types B m` for any sufficiently large `B`. -/
def chainF (types : List PayanarssType) : Nat → PayanarssType → List String
  | 0, _ => []
  | fuel + 1, m =>
    if m.Id = m.ParentId then []
    else
      m.ParentId ::
        (match findById types m.ParentId with
         | none => []
         | some p => chainF types fuel p)

/-- Specification-side children list: the non-root store elements whose
`ParentId` is `p`, in store order (what Pass 2 accumulates). -/
def childrenOfL (types : List PayanarssType) (p : String) : List PayanarssType :=
  types.filter (fun t => !decide (t.Id = t.ParentId) && decide (t.ParentId = p))

/-- Specification-side descendant count: how many store elements have the node
with id `i` as a strict ancestor. -/
def ancDescCount (types : List PayanarssType) (B : Nat) (i : String) : Nat :=
  types.countP (fun m => decide (i ∈ chainF types B m))

/-- Invariant of the Pass 3 memo table: every cached value is the true
descendant count of its key. -/
def MemOK (types : List PayanarssType) (B : Nat) (memo : List (String × Nat)) : Prop :=
  ∀ k v, memoLookup memo k = some v → v = ancDescCount types B k

/-- A small acyclic store with one root, one child and one grandchild, used to
instantiate the index-correctness theorem. -/
def wstore : List PayanarssType :=
  [{ Id := "r", ParentId := "r", Name := "Root", PayanarssTypeId := "t", Description := none },
   { Id := "c", ParentId := "r", Name := "Child", PayanarssTypeId := "t", Description := none },
   { Id := "g", ParentId := "c", Name := "Grand", PayanarssTypeId := "t", Description := none }]

/-- Depth function witnessing that `wstore` is acyclic. -/
def wrank (i : String) : Nat :=
  if i = "r" then 0 else if i = "c" then 1 else 2

end MaaErp

namespace Designer

theorem mem_forestIds_of_removeNodeGo (t : String) :
    ∀ (l : List PTNode) (acc : Option PTNode) (x : String),
      x ∈ forestIds (removeNodeGo t l acc).1 → x ∈ forestIds l := by
  intro l acc
  induction l, acc using removeNodeGo.induct t with
  | case1 => intro x hx; simp [removeNodeGo, forestIds] at hx
  | case2 nm e cs rest acc ih =>
    intro x hx
    simp only [removeNodeGo, if_pos rfl] at hx
    have := ih x hx
    simp only [forestIds, List.mem_cons, List.mem_append]
    tauto
  | case3 ni nm e cs rest acc hni rs acc2 heq1 rs2 acc3 heq2 ih1 ih2 =>
    intro x hx
    simp only [removeNodeGo, if_neg hni, heq1, heq2, forestIds, List.mem_cons,
      List.mem_append] at hx
    simp only [forestIds, List.mem_cons, List.mem_append]
    rcases hx with h | h | h
    · exact Or.inl h
    · exact Or.inr (Or.inl (ih1 x (by rw [heq1]; exact h)))
    · exact Or.inr (Or.inr (ih2 x (by rw [heq2]; exact h)))

theorem mem_forestIds_of_findNode {t x : String} :
    ∀ (l : List PTNode) (r : PTNode), findNode l t = some r →
      x ∈ forestIds r.children → x ∈ forestIds l := by
  intro l
  induction l, t using findNode.induct with
  | case1 => intro r hr; simp [findNode] at hr
  | case2 nm e cs rest i =>
    intro r hr hx
    simp [findNode] at hr
    subst hr
    simp only [forestIds, List.mem_cons, List.mem_append] at hx ⊢
    tauto
  | case3 ni nm e cs rest i hni r0 hr0 ih =>
    intro r hr hx
    simp only [findNode, if_neg hni, hr0, Option.some.injEq] at hr
    subst hr
    have := ih r0 hr0 hx
    simp only [forestIds, List.mem_cons, List.mem_append]
    tauto
  | case4 ni nm e cs rest i hni hnone ih1 ih2 =>
    intro r hr hx
    simp only [findNode, if_neg hni, hnone] at hr
    have := ih2 r hr hx
    simp only [forestIds, List.mem_cons, List.mem_append]
    tauto

theorem pushChildAt_eq_none {dropId : String} {removed : PTNode} :
    ∀ l : List PTNode, dropId ∉ forestIds l → pushChildAt dropId removed l = none := by
  intro l
  induction l using pushChildAt.induct dropId removed with
  | case1 => intro _; simp [pushChildAt]
  | case2 nm e cs rest =>
    intro h
    exact absurd (by simp [forestIds] : dropId ∈ forestIds _) h
  | case3 ni nm e cs rest hni cs1 hcs1 ih =>
    intro h
    exfalso
    simp only [forestIds, List.mem_cons, List.mem_append] at h
    push_neg at h
    rw [ih h.2.1] at hcs1
    exact Option.noConfusion hcs1
  | case4 ni nm e cs rest hni hnone ih1 ih2 =>
    intro h
    simp only [forestIds, List.mem_cons, List.mem_append] at h
    push_neg at h
    simp [pushChildAt, hni, hnone, ih2 h.2.2]

theorem not_mem_removeNodeGo_of_subtree {t x : String} :
    ∀ (l : List PTNode) (acc : Option PTNode), (forestIds l).Nodup →
      ∀ dn : PTNode, findNode l t = some dn → x ∈ forestIds dn.children →
        x ∉ forestIds (removeNodeGo t l acc).1 := by
  intro l acc
  induction l, acc using removeNodeGo.induct t with
  | case1 => intro _ dn hdn; simp [findNode] at hdn
  | case2 nm e cs rest acc ih =>
    intro hnd dn hdn hx hmem
    simp [findNode] at hdn
    subst hdn
    simp only [removeNodeGo, if_pos rfl] at hmem
    have hrest := mem_forestIds_of_removeNodeGo t rest _ x hmem
    simp only [forestIds, List.nodup_cons, List.nodup_append, List.mem_append] at hnd
    exact hnd.2.2.2 hx hrest
  | case3 ni nm e cs rest acc hni rs acc2 heq1 rs2 acc3 heq2 ih1 ih2 =>
    intro hnd dn hdn hx hmem
    simp only [forestIds, List.nodup_cons, List.nodup_append, List.mem_append] at hnd
    obtain ⟨hhead, hcs, hrest, hdisj⟩ := hnd
    push_neg at hhead
    simp only [removeNodeGo, if_neg hni, heq1, heq2, forestIds, List.mem_cons,
      List.mem_append] at hmem
    rcases hfind : findNode cs t with _ | r0
    · -- found among the later siblings
      simp only [findNode, if_neg hni, hfind] at hdn
      have hxrest : x ∈ forestIds rest := mem_forestIds_of_findNode rest dn hdn hx
      rcases hmem with h | h | h
      · exact hhead.2 (h ▸ hxrest)
      · have : x ∈ forestIds cs := mem_forestIds_of_removeNodeGo t cs _ x (by rw [heq1]; exact h)
        exact hdisj this hxrest
      · exact ih2 hrest dn hdn hx (by rw [heq2]; exact h)
    · -- found inside the first child's subtree
      simp only [findNode, if_neg hni, hfind, Option.some.injEq] at hdn
      subst hdn
      have hxcs : x ∈ forestIds cs := mem_forestIds_of_findNode cs r0 hfind hx
      rcases hmem with h | h | h
      · exact hhead.1 (h ▸ hxcs)
      · exact ih1 hcs r0 hfind hx (by rw [heq1]; exact h)
      · have : x ∈ forestIds rest := mem_forestIds_of_removeNodeGo t rest _ x (by rw [heq2]; exact h)
        exact hdisj hxcs this

end Designer

/-- C1: moveNode is a no-op when `dragId == dropId` (any position); and when
`dropId` is a strict descendant of `dragId` (in a duplicate-free tree) it is a
no-op for position `inside` — the drop target disappears with the removed
subtree, `findNode` fails, and the operation returns without committing.  (The
`before`/`after` positions do NOT enjoy the guard; see the counterexample.) -/
theorem c1_moveNode_guard (root : List Designer.PTNode) (dragId dropId : String)
    (position : Designer.Pos) :
    (dragId = dropId → Designer.moveNode root dragId dropId position = root)
    ∧ ((Designer.forestIds root).Nodup → dropId ∈ Designer.subtreeIds root dragId →
        Designer.moveNode root dragId dropId Designer.Pos.inside = root) := by
  constructor
  · intro h
    simp [Designer.moveNode, h]
  · intro hnd hsub
    by_cases hdd : dragId = dropId
    · simp [Designer.moveNode, hdd]
    · unfold Designer.subtreeIds at hsub
      rcases hfind : Designer.findNode root dragId with _ | dn
      · rw [hfind] at hsub; simp at hsub
      · rw [hfind] at hsub
        rcases hrm : Designer.removeNode root dragId with ⟨tree, removed⟩
        have htree : tree = (Designer.removeNodeGo dragId root none).1 := by
          rw [show Designer.removeNodeGo dragId root none = (tree, removed) from hrm]
        rcases removed with _ | rm
        · simp [Designer.moveNode, hdd, hrm]
        · have hnotin : dropId ∉ Designer.forestIds tree := by
            rw [htree]
            exact Designer.not_mem_removeNodeGo_of_subtree root none hnd dn hfind hsub
          have hpush := @Designer.pushChildAt_eq_none dropId rm tree hnotin
          simp [Designer.moveNode, hdd, hrm, hpush]

/-- C1 counterexample: in the tree `[a[c[d]], b]`, `"d"` is a strict descendant
of `"c"`, yet `moveNode("c", "d", "before")` changes the store: the removal
erases the drop target, `findIndex` returns `-1`, and `splice(-1, 0, …)`
re-inserts the dragged subtree at the top level. -/
theorem c1_cex :
    "d" ∈ Designer.subtreeIds
        [⟨"a", "A", false, [⟨"c", "C", false, [⟨"d", "D", false, []⟩]⟩]⟩, ⟨"b", "B", false, []⟩]
        "c"
    ∧ Designer.moveNode
        [⟨"a", "A", false, [⟨"c", "C", false, [⟨"d", "D", false, []⟩]⟩]⟩, ⟨"b", "B", false, []⟩]
        "c" "d" Designer.Pos.before
      ≠ [⟨"a", "A", false, [⟨"c", "C", false, [⟨"d", "D", false, []⟩]⟩]⟩, ⟨"b", "B", false, []⟩] := by
  have h1 : Designer.removeNode
      [⟨"a", "A", false, [⟨"c", "C", false, [⟨"d", "D", false, []⟩]⟩]⟩, ⟨"b", "B", false, []⟩] "c"
      = ([⟨"a", "A", false, []⟩, ⟨"b", "B", false, []⟩],
         some ⟨"c", "C", false, [⟨"d", "D", false, []⟩]⟩) := by
    simp [Designer.removeNode, Designer.removeNodeGo]
  have h2 : Designer.insertNear "d" ⟨"c", "C", false, [⟨"d", "D", false, []⟩]⟩ Designer.Pos.before
      [⟨"a", "A", false, []⟩, ⟨"b", "B", false, []⟩] = none := by
    simp [Designer.insertNear]
  have hf : Designer.findNode
      [⟨"a", "A", false, [⟨"c", "C", false, [⟨"d", "D", false, []⟩]⟩]⟩, ⟨"b", "B", false, []⟩] "c"
      = some ⟨"c", "C", false, [⟨"d", "D", false, []⟩]⟩ := by
    simp [Designer.findNode]
  have heval : Designer.moveNode
      [⟨"a", "A", false, [⟨"c", "C", false, [⟨"d", "D", false, []⟩]⟩]⟩, ⟨"b", "B", false, []⟩]
      "c" "d" Designer.Pos.before
      = [⟨"a", "A", false, []⟩, ⟨"c", "C", false, [⟨"d", "D", false, []⟩]⟩,
         ⟨"b", "B", false, []⟩] := by
    unfold Designer.moveNode
    rw [if_neg (by decide), h1]
    simp [h2, Designer.spliceAtNegOne]
  refine ⟨?_, ?_⟩
  · rw [Designer.subtreeIds, hf]
    simp [Designer.forestIds]
  · rw [heval]
    intro h
    have hlen := congrArg List.length h
    simp at hlen

namespace Designer

theorem commit_history_spec (s : TreeState) (f : List PTNode → List PTNode)
    (hidx : s.idx < s.history.length) (hb : s.history.length ≤ 50) :
    (commit s f).history = (s.history.take (s.idx + 1) ++ [f s.root]) ∧ s.idx + 2 ≤ 50
    ∨ (commit s f).history = (s.history.take (s.idx + 1) ++ [f s.root]).drop 1 ∧ s.idx + 2 = 51 := by
  have hlen1 : (s.history.take (s.idx + 1) ++ [f s.root]).length = s.idx + 2 := by
    simp [List.length_take]
    omega
  by_cases hov : 50 < (s.history.take (s.idx + 1) ++ [f s.root]).length
  · right
    refine ⟨?_, by omega⟩
    simp only [commit, if_pos hov]
  · left
    refine ⟨?_, by omega⟩
    simp only [commit, if_neg hov]

theorem commit_idx_spec (s : TreeState) (f : List PTNode → List PTNode) :
    (commit s f).idx = (commit s f).history.length - 1 := rfl

theorem undo_spec (t : TreeState) (h0 : t.idx ≠ 0) :
    (undo t).root = (t.history[t.idx - 1]?).getD t.root
    ∧ (undo t).idx = t.idx - 1 ∧ (undo t).history = t.history := by
  simp [undo, h0]

theorem redo_spec (t : TreeState) (hlt : t.idx < t.history.length - 1) :
    (redo t).root = (t.history[t.idx + 1]?).getD t.root
    ∧ (redo t).idx = t.idx + 1 ∧ (redo t).history = t.history := by
  have : ¬(t.history.length - 1 ≤ t.idx) := by omega
  simp [redo, this]

theorem undo_history (t : TreeState) : (undo t).history = t.history := by
  unfold undo
  split <;> rfl

theorem redo_history (t : TreeState) : (redo t).history = t.history := by
  unfold redo
  split <;> rfl

end Designer

/-- C8 (amended): for a reachable tree state and a single committed mutation
`f`, `undo` restores the pre-mutation store and `redo` then restores the
mutated store; `undo`/`redo` never push history entries; and `commit`
preserves reachability, in particular the 50-snapshot history bound (oldest
snapshot trimmed on overflow, redo tail discarded). -/
theorem c8_undo_redo (s : Designer.TreeState) (f : List Designer.PTNode → List Designer.PTNode)
    (hs : Designer.Reachable s) :
    (Designer.undo (Designer.commit s f)).root = s.root
    ∧ (Designer.redo (Designer.undo (Designer.commit s f))).root = (Designer.commit s f).root
    ∧ (∀ t : Designer.TreeState,
        (Designer.undo t).history = t.history ∧ (Designer.redo t).history = t.history)
    ∧ Designer.Reachable (Designer.commit s f) := by
  obtain ⟨hb, hidx, hroot⟩ := hs
  have hcroot : (Designer.commit s f).root = f s.root := rfl
  have htlen : (s.history.take (s.idx + 1)).length = s.idx + 1 := by
    simp [List.length_take]
    omega
  have key :
      (Designer.commit s f).history.length ≤ 50
      ∧ ((Designer.commit s f).history[(Designer.commit s f).history.length - 2]? = some s.root)
      ∧ ((Designer.commit s f).history[(Designer.commit s f).history.length - 1]? = some (f s.root))
      ∧ 2 ≤ (Designer.commit s f).history.length := by
    rcases Designer.commit_history_spec s f hidx hb with ⟨hch, hle⟩ | ⟨hch, he⟩
    · have hchl : (Designer.commit s f).history.length = s.idx + 2 := by
        rw [hch]
        simp [htlen]
      refine ⟨by omega, ?_, ?_, by omega⟩
      · rw [hchl, hch]
        have h1 : s.idx + 2 - 2 = s.idx := by omega
        rw [h1, List.getElem?_append, if_pos (by omega), List.getElem?_take_of_lt (by omega)]
        exact hroot
      · rw [hchl, hch]
        have h1 : s.idx + 2 - 1 = (s.history.take (s.idx + 1)).length := by omega
        rw [h1]
        exact List.getElem?_concat_length _ _
    · have hn : s.idx = 49 := by omega
      have hh : s.history.length = 50 := by omega
      have htk : s.history.take (s.idx + 1) = s.history := by
        apply List.take_of_length_le
        omega
      have hchl : (Designer.commit s f).history.length = 50 := by
        rw [hch, htk]
        simp [hh]
      refine ⟨by omega, ?_, ?_, by omega⟩
      · rw [hchl, hch, htk, List.getElem?_drop]
        rw [show 1 + (50 - 2) = 49 from by omega]
        rw [List.getElem?_append, if_pos (by omega)]
        rw [← hn]
        exact hroot
      · rw [hchl, hch, htk, List.getElem?_drop]
        rw [show 1 + (50 - 1) = s.history.length from by omega]
        exact List.getElem?_concat_length _ _
  obtain ⟨k50, kprev, klast, k2⟩ := key
  have hcidx := Designer.commit_idx_spec s f
  have hu := Designer.undo_spec (Designer.commit s f) (by omega)
  have hur : (Designer.undo (Designer.commit s f)).root = s.root := by
    rw [hu.1, hcidx]
    rw [show (Designer.commit s f).history.length - 1 - 1 =
        (Designer.commit s f).history.length - 2 from by omega]
    rw [kprev]
    rfl
  refine ⟨hur, ?_, fun t => ⟨Designer.undo_history t, Designer.redo_history t⟩, ?_, ?_, ?_⟩
  · have huh := Designer.undo_history (Designer.commit s f)
    have huidx : (Designer.undo (Designer.commit s f)).idx =
        (Designer.commit s f).history.length - 2 := by
      rw [hu.2.1, hcidx]
      omega
    have hr := Designer.redo_spec (Designer.undo (Designer.commit s f))
      (by rw [huidx, huh]; omega)
    rw [hr.1, huh, huidx]
    rw [show (Designer.commit s f).history.length - 2 + 1 =
        (Designer.commit s f).history.length - 1 from by omega]
    rw [klast]
    rfl
  · exact k50
  · rw [hcidx]; omega
  · rw [hcidx, klast, hcroot]

/-- C8 witness: concrete single mutation on a freshly loaded store. -/
theorem c8_witness :
    (Designer.undo (Designer.commit (Designer.loadTree [])
        (fun r => ⟨"n", "N", false, []⟩ :: r))).root = []
    ∧ (Designer.redo (Designer.undo (Designer.commit (Designer.loadTree [])
        (fun r => ⟨"n", "N", false, []⟩ :: r)))).root
      = (Designer.commit (Designer.loadTree []) (fun r => ⟨"n", "N", false, []⟩ :: r)).root := by
  have h := c8_undo_redo (Designer.loadTree []) (fun r => ⟨"n", "N", false, []⟩ :: r)
    ⟨by simp [Designer.loadTree], by simp [Designer.loadTree], by simp [Designer.loadTree]⟩
  exact ⟨h.1, h.2.1⟩

/-- C8 counterexample: after a sequence of TWO committed mutations (two
cascading deletes), a single `undo` does not restore the original store — it
restores the intermediate one, so `undo(M(S)) == S` fails for non-singleton
mutation sequences `M`. -/
theorem c8_cex :
    (Designer.undo (Designer.deleteNode (Designer.deleteNode
        (Designer.loadTree [⟨"a", "A", false, []⟩, ⟨"b", "B", false, []⟩]) "a") "b")).root
      ≠ [⟨"a", "A", false, []⟩, ⟨"b", "B", false, []⟩] := by
  intro h
  have hlen := congrArg List.length h
  rw [show (Designer.undo (Designer.deleteNode (Designer.deleteNode
      (Designer.loadTree [⟨"a", "A", false, []⟩, ⟨"b", "B", false, []⟩]) "a") "b")).root
      = [⟨"b", "B", false, []⟩] from by
    simp [Designer.deleteNode, Designer.commit, Designer.loadTree, Designer.undo,
      Designer.removeNode, Designer.removeNodeGo]] at hlen
  simp at hlen

/-- C9: `currentChildren` shows the children of the top of the navigation
stack; with an empty stack it shows the single root's children, and the roots
themselves when more than one root exists. -/
theorem c9_currentChildren (index : MaaErp.HierarchyIndex) (stack : List String) :
    (∀ topId, stack.getLast? = some topId →
        MaaErp.currentChildren index stack = MaaErp.getChildren index topId)
    ∧ (stack = [] → ∀ r, index.roots = [r] →
        MaaErp.currentChildren index stack = MaaErp.getChildren index r.Id)
    ∧ (stack = [] → 1 < index.roots.length →
        MaaErp.currentChildren index stack = index.roots) := by
  refine ⟨?_, ?_, ?_⟩
  · intro topId h
    simp [MaaErp.currentChildren, h]
  · intro hs r hr
    subst hs
    simp [MaaErp.currentChildren, hr]
  · intro hs hlen
    subst hs
    rcases hr : index.roots with _ | ⟨a, _ | ⟨b, t⟩⟩
    · rw [hr] at hlen; simp at hlen
    · rw [hr] at hlen; simp at hlen
    · simp [MaaErp.currentChildren, hr]

/-- C9 witness: a concrete index with one catalog node under parent `"x"` and
a navigation stack whose top is `"x"`. -/
theorem c9_witness :
    MaaErp.currentChildren
        { byId := fun _ => none
          childrenOf := fun p =>
            if p = "x" then [⟨"y", "x", "Y", "t", none⟩] else []
          roots := [], totalCount := 1, descendantCount := fun _ => none }
        ["r", "x"]
      = MaaErp.getChildren
        { byId := fun _ => none
          childrenOf := fun p =>
            if p = "x" then [⟨"y", "x", "Y", "t", none⟩] else []
          roots := [], totalCount := 1, descendantCount := fun _ => none }
        "x" :=
  (c9_currentChildren _ ["r", "x"]).1 "x" rfl

namespace MaaErp

theorem cyc_co_a : (pass2 cycStore).1 "a" = [cycNodeB] := by rfl

theorem cyc_co_b : (pass2 cycStore).1 "b" = [cycNodeA] := by rfl

theorem cyc_byId_a : pass1 cycStore "a" = some cycNodeA := by rfl

theorem cyc_byId_b : pass1 cycStore "b" = some cycNodeB := by rfl

theorem cyc_countD_none :
    ∀ (fuel : Nat) (memo : List (String × Nat)),
      memoLookup memo "a" = none → memoLookup memo "b" = none →
      countDescendantsF (pass2 cycStore).1 fuel memo "a" = none
      ∧ countDescendantsF (pass2 cycStore).1 fuel memo "b" = none := by
  intro fuel
  induction fuel with
  | zero =>
    intro memo _ _
    exact ⟨by simp [countDescendantsF], by simp [countDescendantsF]⟩
  | succ n ih =>
    intro memo ha hb
    constructor
    · simp only [countDescendantsF, ha, cyc_co_a, countChildrenSum.eq_def,
        show cycNodeB.Id = "b" from rfl, (ih memo ha hb).2]
    · simp only [countDescendantsF, hb, cyc_co_b, countChildrenSum.eq_def,
        show cycNodeA.Id = "a" from rfl, (ih memo ha hb).1]

end MaaErp

/-- C3 (code bug): the spec requires Pass 3 of `buildHierarchyIndex` to track
per-path visited state so that the index build terminates even on a cyclic
store, but `countDescendants` only consults the memo map — which is written
only AFTER a recursive call returns — so on the two-node cycle `a ⇄ b` the
recursion never terminates: no amount of fuel makes the embedded build return. -/
theorem c3_build_diverges_on_cycle :
    ∀ fuel : Nat, MaaErp.buildHierarchyIndexF MaaErp.cycStore fuel = none := by
  intro fuel
  have h : MaaErp.countDescendantsF (MaaErp.pass2 [MaaErp.cycNodeA, MaaErp.cycNodeB]).1
      fuel [] "a" = none :=
    (MaaErp.cyc_countD_none fuel [] rfl rfl).1
  rw [MaaErp.buildHierarchyIndexF]
  rw [show MaaErp.pass3 (MaaErp.pass2 MaaErp.cycStore).1 MaaErp.cycStore fuel = none from by
    rw [MaaErp.pass3]
    rw [show MaaErp.cycStore = MaaErp.cycNodeA :: [MaaErp.cycNodeB] from rfl]
    rw [List.foldlM, show MaaErp.cycNodeA.Id = "a" from rfl, h]
    rfl]

/-- C4 (code bug): `getAncestorPath` has no visited-id guard, so the upward
walk never terminates on the two-node cycle `a ⇄ b`: no amount of fuel makes
the embedded walk return, whatever nodes have been accumulated so far. -/
theorem c4_ancestorPath_diverges_on_cycle :
    ∀ (fuel : Nat) (path : List MaaErp.PayanarssType),
      MaaErp.getAncestorPathF (MaaErp.pass1 MaaErp.cycStore) fuel "a" path = none
      ∧ MaaErp.getAncestorPathF (MaaErp.pass1 MaaErp.cycStore) fuel "b" path = none := by
  intro fuel
  induction fuel with
  | zero => intro path; exact ⟨rfl, rfl⟩
  | succ n ih =>
    intro path
    constructor
    · rw [MaaErp.getAncestorPathF, if_neg (show ¬("a" : String) = "" by decide),
        MaaErp.cyc_byId_a]
      show (if MaaErp.cycNodeA.Id = MaaErp.cycNodeA.ParentId
            then some (MaaErp.cycNodeA :: path)
            else MaaErp.getAncestorPathF (MaaErp.pass1 MaaErp.cycStore) n
              MaaErp.cycNodeA.ParentId (MaaErp.cycNodeA :: path)) = none
      rw [if_neg (show ¬MaaErp.cycNodeA.Id = MaaErp.cycNodeA.ParentId by decide)]
      exact (ih _).2
    · rw [MaaErp.getAncestorPathF, if_neg (show ¬("b" : String) = "" by decide),
        MaaErp.cyc_byId_b]
      show (if MaaErp.cycNodeB.Id = MaaErp.cycNodeB.ParentId
            then some (MaaErp.cycNodeB :: path)
            else MaaErp.getAncestorPathF (MaaErp.pass1 MaaErp.cycStore) n
              MaaErp.cycNodeB.ParentId (MaaErp.cycNodeB :: path)) = none
      rw [if_neg (show ¬MaaErp.cycNodeB.Id = MaaErp.cycNodeB.ParentId by decide)]
      exact (ih _).1

namespace Importer

theorem validate_length_all :
    (∀ (j : Jon) (path : String), (validateNode j path).length = defectCount j)
    ∧ (∀ (fields : JonFields) (path : String),
        (childrenErrors fields path).length = childrenDefects fields)
    ∧ (∀ (xs : JonList) (path : String) (i : Nat),
        (validateChildren xs path i).length = defectsOfList xs) := by
  have case1 : ∀ (fields : JonFields) (path : String),
      (childrenErrors fields path).length = childrenDefects fields →
      (validateNode (Jon.obj fields) path).length = defectCount (Jon.obj fields) := by
    intro fields path ih
    rw [validateNode.eq_def, defectCount.eq_def]
    simp only [List.length_append, ih]
    cases h1 : fieldPresent fields "Id" <;>
      cases h2 : fieldPresent fields "Name" <;>
      cases h3 : fieldPresent fields "Type" <;>
      rcases h4 : fieldString fields "Name" with _ | s4 <;>
      rcases h5 : fieldString fields "Type" with _ | s5 <;>
      simp <;> (try split_ifs) <;> (try simp) <;> (try omega)
  have case2 : ∀ (t : Jon) (path : String),
      (∀ (fields : JonFields), t = Jon.obj fields → False) →
      (validateNode t path).length = defectCount t := by
    intro j path hj
    rw [validateNode.eq_def, defectCount.eq_def]
    match j, hj with
    | Jon.null, _ => simp
    | Jon.bool b, _ => simp
    | Jon.num m, _ => simp
    | Jon.str s, _ => simp
    | Jon.arr xs, _ => simp
    | Jon.obj fields, hj => exact absurd rfl (hj fields)
  have case3 : ∀ (path : String) (i : Nat),
      (validateChildren JonList.nil path i).length = defectsOfList JonList.nil := by
    intro path i
    rw [validateChildren.eq_def, defectsOfList.eq_def]
    simp
  have case4 : ∀ (c : Jon) (rest : JonList) (path : String) (i : Nat),
      (validateNode c (path ++ ".Children[" ++ toString i ++ "]")).length = defectCount c →
      (validateChildren rest path (i + 1)).length = defectsOfList rest →
      (validateChildren (JonList.cons c rest) path i).length
        = defectsOfList (JonList.cons c rest) := by
    intro c rest path i ih1 ih2
    rw [validateChildren.eq_def, defectsOfList.eq_def]
    simp [ih1, ih2]
  have case5 : ∀ path : String,
      (childrenErrors JonFields.nil path).length = childrenDefects JonFields.nil := by
    intro path
    rw [childrenErrors.eq_def, childrenDefects.eq_def]
    simp
  have case6 : ∀ (rest : JonFields) (key : String) (xs : JonList),
      (validateChildren xs key 0).length = defectsOfList xs →
      (childrenErrors (JonFields.cons "Children" (Jon.arr xs) rest) key).length
        = childrenDefects (JonFields.cons "Children" (Jon.arr xs) rest) := by
    intro rest key xs ih
    rw [childrenErrors.eq_def, childrenDefects.eq_def]
    simp [ih]
  have case7 : ∀ (v : Jon) (rest : JonFields) (key : String),
      (∀ (xs : JonList), v = Jon.arr xs → False) →
      (childrenErrors (JonFields.cons "Children" v rest) key).length
        = childrenDefects (JonFields.cons "Children" v rest) := by
    intro v rest key hv
    rw [childrenErrors.eq_def, childrenDefects.eq_def]
    match v, hv with
    | Jon.null, _ => simp
    | Jon.bool b, _ => simp
    | Jon.num m, _ => simp
    | Jon.str s, _ => simp
    | Jon.obj gs, _ => simp
    | Jon.arr xs, hv => exact absurd rfl (hv xs)
  have case8 : ∀ (k : String) (v : Jon) (rest : JonFields) (key : String),
      ¬k = "Children" →
      (childrenErrors rest key).length = childrenDefects rest →
      (childrenErrors (JonFields.cons k v rest) key).length
        = childrenDefects (JonFields.cons k v rest) := by
    intro k v rest key hk ih
    rw [childrenErrors.eq_def, childrenDefects.eq_def]
    simp [hk, ih]
  exact @validateNode.mutual_induct
    (fun j path => (validateNode j path).length = defectCount j)
    (fun fields path => (childrenErrors fields path).length = childrenDefects fields)
    (fun xs path i => (validateChildren xs path i).length = defectsOfList xs)
    case1 case2 case3 case4 case5 case6 case7 case8

theorem JonList.length_eq_zero : ∀ l : JonList, l.length = 0 → l = JonList.nil := by
  intro l
  match l with
  | JonList.nil => intro _; rfl
  | JonList.cons j rest => intro h; simp [JonList.length] at h

theorem validateRoots_length : ∀ (nodes : JonList) (i : Nat),
    (validateRoots nodes i).length = defectsOfList nodes := by
  intro nodes i
  induction nodes, i using validateRoots.induct with
  | case1 i =>
    rw [validateRoots, defectsOfList.eq_def]
    simp
  | case2 j rest i ih =>
    rw [validateRoots, defectsOfList.eq_def]
    simp [validate_length_all.1, ih]

end Importer

/-- C2 (amended): for a parsed import input with at least one schema defect
and no `null` node in a counted position (`countNodes` would throw a
`TypeError` on a `null` node — see the counterexample), the handler aborts the
whole import: `success = false`, `importedCount = 0`, no records, and the
error list carries exactly one entry per defect of the whole input (validation
collects all defects instead of stopping at the first). -/
theorem c2_invalid_aborts (data : Importer.Jon) (p : String) (ex : List Importer.PTRecord)
    (n : Nat)
    (hok : Importer.countNodesE (Importer.normalizeInput data) = Except.ok n)
    (hdef : 0 < Importer.totalDefects data) :
    Importer.importFromData data p ex =
      Except.ok
        { success := false, importedCount := 0, records := []
          errors := Importer.validateRoots (Importer.normalizeInput data) 0
          warnings :=
            if 500 < n then
              ["Large import detected (" ++ toString n ++ " nodes). This may take a moment."]
            else [] }
    ∧ (Importer.validateRoots (Importer.normalizeInput data) 0).length
        = Importer.totalDefects data := by
  have hlen := Importer.validateRoots_length (Importer.normalizeInput data) 0
  have hne : ¬((Importer.normalizeInput data).length = 0) := by
    intro h0
    have h1 := Importer.JonList.length_eq_zero _ h0
    unfold Importer.totalDefects at hdef
    rw [h1, Importer.defectsOfList.eq_def] at hdef
    simp at hdef
  have herr : ¬((Importer.validateRoots (Importer.normalizeInput data) 0).length = 0) := by
    rw [hlen]
    unfold Importer.totalDefects at hdef
    omega
  have hval : Importer.validateImportDataE data =
      Except.ok
        { isValid := false
          errors := Importer.validateRoots (Importer.normalizeInput data) 0
          warnings :=
            if 500 < n then
              ["Large import detected (" ++ toString n ++ " nodes). This may take a moment."]
            else [] } := by
    rw [Importer.validateImportDataE, if_neg hne, hok]
    simp [herr]
  refine ⟨?_, hlen.trans rfl⟩
  rw [Importer.importFromData, hval]
  simp

/-- C2 counterexample: on the parsed input `[null]` — a schema-invalid node —
the handler does not return a failed `ImportResult` at all: `countNodes`
dereferences `node.Children` on `null` and the resulting `TypeError` escapes
`handlePayanarssTypeImport` uncaught. -/
theorem c2_cex :
    Importer.importFromData (Importer.Jon.arr (Importer.JonList.cons Importer.Jon.null Importer.JonList.nil)) "p" [] = Except.error () := by
  have hcount : Importer.countNodesE (Importer.JonList.cons Importer.Jon.null Importer.JonList.nil) = Except.error () := by
    simp [Importer.countNodesE]
  have hval : Importer.validateImportDataE (Importer.Jon.arr (Importer.JonList.cons Importer.Jon.null Importer.JonList.nil))
      = Except.error () := by
    rw [Importer.validateImportDataE]
    rw [if_neg (by simp [Importer.JonList.length])]
    rw [show Importer.normalizeInput (Importer.Jon.arr (Importer.JonList.cons Importer.Jon.null Importer.JonList.nil))
        = Importer.JonList.cons Importer.Jon.null Importer.JonList.nil from rfl, hcount]
  rw [Importer.importFromData, hval]

/-- C2 witness: one object node missing both `Name` and `Type` (two defects). -/
theorem c2_witness :
    Importer.importFromData (Importer.Jon.obj (Importer.JonFields.cons "Id" (Importer.Jon.str "1") Importer.JonFields.nil)) "p" [] =
      Except.ok
        { success := false, importedCount := 0, records := []
          errors := Importer.validateRoots
            (Importer.normalizeInput (Importer.Jon.obj (Importer.JonFields.cons "Id" (Importer.Jon.str "1") Importer.JonFields.nil))) 0
          warnings := [] }
    ∧ (Importer.validateRoots
        (Importer.normalizeInput (Importer.Jon.obj (Importer.JonFields.cons "Id" (Importer.Jon.str "1") Importer.JonFields.nil))) 0).length
      = 2 := by
  have h := c2_invalid_aborts (Importer.Jon.obj (Importer.JonFields.cons "Id" (Importer.Jon.str "1") Importer.JonFields.nil)) "p" [] 1
    (by simp [Importer.normalizeInput, Importer.countNodesE, Importer.countChildrenOf])
    (by simp [Importer.totalDefects, Importer.normalizeInput, Importer.defectsOfList,
      Importer.defectCount, Importer.fieldPresent, Importer.lookupField,
      Importer.fieldString, Importer.childrenDefects])
  refine ⟨?_, ?_⟩
  · rw [h.1]
    norm_num
  · rw [h.2]
    simp [Importer.totalDefects, Importer.normalizeInput, Importer.defectsOfList,
      Importer.defectCount, Importer.fieldPresent, Importer.lookupField,
      Importer.fieldString, Importer.childrenDefects]

namespace Importer

theorem detectDupGo_sublist (es : List String) :
    ∀ (rs : List PTRecord) (batch : List String),
      List.Sublist (detectDupGo es rs batch).1 rs
      ∧ List.Sublist (detectDupGo es rs batch).2 rs := by
  intro rs
  induction rs with
  | nil => intro batch; constructor <;> simp [detectDupGo]
  | cons r rest ih =>
    intro batch
    by_cases h : buildSignature r ∈ es ∨ buildSignature r ∈ batch
    · rcases hgo : detectDupGo es rest batch with ⟨d, u⟩
      have h1 := (ih batch).1
      have h2 := (ih batch).2
      rw [hgo] at h1 h2
      constructor
      · simp only [detectDupGo, if_pos h, hgo]
        exact List.Sublist.cons₂ r h1
      · simp only [detectDupGo, if_pos h, hgo]
        exact List.Sublist.cons r h2
    · rcases hgo : detectDupGo es rest (buildSignature r :: batch) with ⟨d, u⟩
      have h1 := (ih (buildSignature r :: batch)).1
      have h2 := (ih (buildSignature r :: batch)).2
      rw [hgo] at h1 h2
      constructor
      · simp only [detectDupGo, if_neg h, hgo]
        exact List.Sublist.cons r h1
      · simp only [detectDupGo, if_neg h, hgo]
        exact List.Sublist.cons₂ r h2

theorem detectDupGo_count (es : List String) :
    ∀ (rs : List PTRecord) (batch : List String) (x : PTRecord),
      (detectDupGo es rs batch).1.count x + (detectDupGo es rs batch).2.count x
        = rs.count x := by
  intro rs
  induction rs with
  | nil => intro batch x; simp [detectDupGo]
  | cons r rest ih =>
    intro batch x
    by_cases h : buildSignature r ∈ es ∨ buildSignature r ∈ batch
    · rcases hgo : detectDupGo es rest batch with ⟨d, u⟩
      have h1 := ih batch x
      rw [hgo] at h1
      simp only [detectDupGo, if_pos h, hgo, List.count_cons] at h1 ⊢
      omega
    · rcases hgo : detectDupGo es rest (buildSignature r :: batch) with ⟨d, u⟩
      have h1 := ih (buildSignature r :: batch) x
      rw [hgo] at h1
      simp only [detectDupGo, if_neg h, hgo, List.count_cons] at h1 ⊢
      omega

theorem detectDupGo_length (es : List String) :
    ∀ (rs : List PTRecord) (batch : List String),
      (detectDupGo es rs batch).1.length + (detectDupGo es rs batch).2.length = rs.length := by
  intro rs
  induction rs with
  | nil => intro batch; simp [detectDupGo]
  | cons r rest ih =>
    intro batch
    by_cases h : buildSignature r ∈ es ∨ buildSignature r ∈ batch
    · rcases hgo : detectDupGo es rest batch with ⟨d, u⟩
      have h1 := ih batch
      rw [hgo] at h1
      simp only [detectDupGo, if_pos h, hgo, List.length_cons] at h1 ⊢
      omega
    · rcases hgo : detectDupGo es rest (buildSignature r :: batch) with ⟨d, u⟩
      have h1 := ih (buildSignature r :: batch)
      rw [hgo] at h1
      simp only [detectDupGo, if_neg h, hgo, List.length_cons] at h1 ⊢
      omega

theorem detectDupGo_filter (es : List String) :
    ∀ (rs : List PTRecord) (batch : List String) (s : String),
      (s ∉ es ∧ s ∉ batch →
        (detectDupGo es rs batch).2.filter (fun r => decide (buildSignature r = s))
            = (rs.filter (fun r => decide (buildSignature r = s))).take 1
        ∧ (detectDupGo es rs batch).1.filter (fun r => decide (buildSignature r = s))
            = (rs.filter (fun r => decide (buildSignature r = s))).drop 1)
      ∧ (s ∈ es ∨ s ∈ batch →
        (detectDupGo es rs batch).2.filter (fun r => decide (buildSignature r = s)) = []
        ∧ (detectDupGo es rs batch).1.filter (fun r => decide (buildSignature r = s))
            = rs.filter (fun r => decide (buildSignature r = s))) := by
  intro rs
  induction rs with
  | nil => intro batch s; constructor <;> intro h <;> simp [detectDupGo]
  | cons r rest ih =>
    intro batch s
    by_cases h : buildSignature r ∈ es ∨ buildSignature r ∈ batch
    · rcases hgo : detectDupGo es rest batch with ⟨d, u⟩
      have hstep : detectDupGo es (r :: rest) batch = (r :: d, u) := by
        simp only [detectDupGo, if_pos h, hgo]
      have iha := (ih batch s).1
      have ihb := (ih batch s).2
      rw [hgo] at iha ihb
      rw [hstep]
      constructor
      · intro hs
        have hne : ¬(buildSignature r = s) := by
          rintro rfl
          rcases h with h | h
          · exact hs.1 h
          · exact hs.2 h
        simp only [List.filter_cons]
        simp [hne, (iha hs).1, (iha hs).2]
      · intro hs
        refine ⟨(ihb hs).1, ?_⟩
        simp only [List.filter_cons]
        by_cases hrs : buildSignature r = s
        · simp [hrs, (ihb hs).2]
        · simp [hrs, (ihb hs).2]
    · rcases hgo : detectDupGo es rest (buildSignature r :: batch) with ⟨d, u⟩
      have hstep : detectDupGo es (r :: rest) batch = (d, r :: u) := by
        simp only [detectDupGo, if_neg h, hgo]
      have iha := (ih (buildSignature r :: batch) s).1
      have ihb := (ih (buildSignature r :: batch) s).2
      rw [hgo] at iha ihb
      rw [hstep]
      constructor
      · intro hs
        by_cases hrs : buildSignature r = s
        · have hmem : s ∈ es ∨ s ∈ buildSignature r :: batch := by
            right
            rw [← hrs]
            exact List.mem_cons_self _ _
          simp only [List.filter_cons]
          simp [hrs, (ihb hmem).1, (ihb hmem).2]
        · have hnm : s ∉ es ∧ s ∉ buildSignature r :: batch := by
            refine ⟨hs.1, ?_⟩
            intro hmem
            rcases List.mem_cons.mp hmem with hmem | hmem
            · exact hrs hmem.symm
            · exact hs.2 hmem
          simp only [List.filter_cons]
          simp [hrs, (iha hnm).1, (iha hnm).2]
      · intro hs
        have hrs : ¬(buildSignature r = s) := by
          rintro rfl
          rcases hs with hs | hs
          · exact h (Or.inl hs)
          · exact h (Or.inr hs)
        have hmem : s ∈ es ∨ s ∈ buildSignature r :: batch := by
          rcases hs with hs | hs
          · exact Or.inl hs
          · exact Or.inr (List.mem_cons_of_mem _ hs)
        simp only [List.filter_cons]
        simp [hrs, (ihb hmem).1, (ihb hmem).2]

end Importer

/-- C10 (amended): `detectDuplicates` splits its input into complementary,
order-preserving sublists (each input record lands in exactly one of
duplicates/unique); for a signature matching NO existing record, the FIRST
batch record with that signature is classified unique and every later one
duplicate (first occurrence wins); for a signature that matches an existing
record, every batch record with that signature — the first included — is a
duplicate. -/
theorem c10_detectDuplicates (imported existing : List Importer.PTRecord) :
    List.Sublist (Importer.detectDuplicates imported existing).1 imported
    ∧ List.Sublist (Importer.detectDuplicates imported existing).2 imported
    ∧ (∀ x : Importer.PTRecord,
        (Importer.detectDuplicates imported existing).1.count x
          + (Importer.detectDuplicates imported existing).2.count x = imported.count x)
    ∧ (∀ s : String, s ∉ existing.map Importer.buildSignature →
        (Importer.detectDuplicates imported existing).2.filter
            (fun r => decide (Importer.buildSignature r = s))
          = (imported.filter (fun r => decide (Importer.buildSignature r = s))).take 1
        ∧ (Importer.detectDuplicates imported existing).1.filter
            (fun r => decide (Importer.buildSignature r = s))
          = (imported.filter (fun r => decide (Importer.buildSignature r = s))).drop 1)
    ∧ (∀ s : String, s ∈ existing.map Importer.buildSignature →
        (Importer.detectDuplicates imported existing).2.filter
            (fun r => decide (Importer.buildSignature r = s)) = []
        ∧ (Importer.detectDuplicates imported existing).1.filter
            (fun r => decide (Importer.buildSignature r = s))
          = imported.filter (fun r => decide (Importer.buildSignature r = s))) := by
  refine ⟨(Importer.detectDupGo_sublist _ imported []).1,
    (Importer.detectDupGo_sublist _ imported []).2,
    fun x => Importer.detectDupGo_count _ imported [] x, ?_, ?_⟩
  · intro s hs
    exact (Importer.detectDupGo_filter _ imported [] s).1 ⟨hs, by simp⟩
  · intro s hs
    exact (Importer.detectDupGo_filter _ imported [] s).2 (Or.inl hs)

/-- C10 counterexample: two batch records share a signature that also matches
an existing record; the EARLIER batch record is classified duplicate, not
unique, refuting the unconditional "the earlier one is classified unique". -/
theorem c10_cex :
    Importer.buildSignature ⟨"x1", "N", "T", some "p"⟩
      = Importer.buildSignature ⟨"x2", "N", "T", some "p"⟩
    ∧ (Importer.detectDuplicates
        [⟨"x1", "N", "T", some "p"⟩, ⟨"x2", "N", "T", some "p"⟩]
        [⟨"e", "N", "T", some "p"⟩]).2 = [] := by
  constructor
  · rfl
  · have h1 : Importer.buildSignature ⟨"x1", "N", "T", some "p"⟩
        = Importer.buildSignature ⟨"e", "N", "T", some "p"⟩ := rfl
    have h2 : Importer.buildSignature ⟨"x2", "N", "T", some "p"⟩
        = Importer.buildSignature ⟨"e", "N", "T", some "p"⟩ := rfl
    simp [Importer.detectDuplicates, Importer.detectDupGo, h1, h2]

/-- C10 witness: concrete first-occurrence-wins instance with no existing
records. -/
theorem c10_witness :
    (Importer.detectDuplicates
        [⟨"x1", "N", "T", some "p"⟩, ⟨"x2", "N", "T", some "p"⟩] []).2.filter
      (fun r => decide (Importer.buildSignature r
        = Importer.buildSignature ⟨"x1", "N", "T", some "p"⟩))
    = ([(⟨"x1", "N", "T", some "p"⟩ : Importer.PTRecord),
        ⟨"x2", "N", "T", some "p"⟩].filter
      (fun r => decide (Importer.buildSignature r
        = Importer.buildSignature ⟨"x1", "N", "T", some "p"⟩))).take 1 :=
  ((c10_detectDuplicates
      [⟨"x1", "N", "T", some "p"⟩, ⟨"x2", "N", "T", some "p"⟩] []).2.2.2.1
    (Importer.buildSignature ⟨"x1", "N", "T", some "p"⟩) (by simp)).1

namespace Importer

theorem flattenGo_cons (idMap : String → Option String) (i nm ty : String)
    (cs rest : List PTreeNode) (pid : String) :
    flattenGo idMap (⟨i, nm, ty, cs⟩ :: rest) pid
      = { Id := (idMap i).getD "", Name := nm, TypeRef := ty, ParentId := some pid }
        :: (flattenGo idMap cs ((idMap i).getD "") ++ flattenGo idMap rest pid) := by
  by_cases h : 0 < cs.length
  · simp [flattenGo, h]
  · have hnil : cs = [] := by
      cases cs with
      | nil => rfl
      | cons c cs2 => simp at h
    subst hnil
    simp [flattenGo]

theorem flattenGo_parent (idMap : String → Option String) :
    ∀ (ns : List PTreeNode) (pid : String) (r : PTRecord), r ∈ flattenGo idMap ns pid →
      r.ParentId = some pid
      ∨ ∃ rr, rr ∈ flattenGo idMap ns pid ∧ r.ParentId = some rr.Id := by
  intro ns pid
  induction ns, pid using flattenGo.induct idMap with
  | case1 pid => intro r hr; simp [flattenGo] at hr
  | case2 i nm ty cs rest pid nid ih1 ih2 =>
    intro r hr
    rw [flattenGo_cons] at hr
    simp only [List.mem_cons, List.mem_append] at hr
    rcases hr with hr | hr | hr
    · subst hr; exact Or.inl rfl
    · rcases ih1 r hr with hp | ⟨rr, hrr, hp⟩
      · refine Or.inr ⟨⟨(idMap i).getD "", nm, ty, some pid⟩, ?_, hp⟩
        rw [flattenGo_cons]
        exact List.mem_cons_self _ _
      · refine Or.inr ⟨rr, ?_, hp⟩
        rw [flattenGo_cons]
        simp only [List.mem_cons, List.mem_append]
        exact Or.inr (Or.inl hrr)
    · rcases ih2 r hr with hp | ⟨rr, hrr, hp⟩
      · exact Or.inl hp
      · refine Or.inr ⟨rr, ?_, hp⟩
        rw [flattenGo_cons]
        simp only [List.mem_cons, List.mem_append]
        exact Or.inr (Or.inr hrr)

theorem flatten_orphans_nil (idMap : String → Option String) (ns : List PTreeNode) (p : String) :
    detectOrphans (flattenGo idMap ns p) p = [] := by
  rw [detectOrphans]
  rw [List.filter_eq_nil_iff]
  intro r hr
  rcases flattenGo_parent idMap ns p r hr with hp | ⟨rr, hrr, hp⟩
  · simp [hp]
  · simp only [hp]
    simp only [decide_eq_true_eq, not_not, List.mem_cons]
    exact Or.inr (List.mem_map_of_mem (fun x => x.Id) hrr)

end Importer

/-- C5: after id regeneration, every transformed record's `ParentId` is the
attachment point (for source roots) or the new id of another record of the
batch (its source parent); hence `detectOrphans` on the transformed batch is
empty and the handler's orphan-abort branch is never taken (`importSteps`
always falls through to the duplicate phase).  No schema-validity hypothesis
is even needed — the re-linking construction guarantees this for every input
forest. -/
theorem c5_no_orphans (ns : List Importer.PTreeNode) (p : String) :
    (∀ r ∈ Importer.flattenAndTransform ns p (Importer.buildIdMap ns),
        r.ParentId = some p
        ∨ ∃ rr, rr ∈ Importer.flattenAndTransform ns p (Importer.buildIdMap ns)
            ∧ r.ParentId = some rr.Id)
    ∧ Importer.detectOrphans (Importer.flattenAndTransform ns p (Importer.buildIdMap ns)) p = []
    ∧ ∀ (ex : List Importer.PTRecord) (w0 : List String),
        Importer.importSteps ns p ex w0
          = Importer.dupPhase (Importer.flattenAndTransform ns p (Importer.buildIdMap ns)) ex w0 := by
  refine ⟨?_, ?_, ?_⟩
  · intro r hr
    exact Importer.flattenGo_parent (Importer.buildIdMap ns) ns p r hr
  · exact Importer.flatten_orphans_nil (Importer.buildIdMap ns) ns p
  · intro ex w0
    rw [Importer.importSteps]
    rw [show Importer.detectOrphans
        (Importer.flattenAndTransform ns p (Importer.buildIdMap ns)) p = [] from
      Importer.flatten_orphans_nil (Importer.buildIdMap ns) ns p]
    simp

/-- C5 witness: a concrete two-level forest attached under `"root"`. -/
theorem c5_witness :
    Importer.detectOrphans
        (Importer.flattenAndTransform
          [⟨"s1", "A", "T", [⟨"s2", "B", "T", []⟩]⟩] "root"
          (Importer.buildIdMap [⟨"s1", "A", "T", [⟨"s2", "B", "T", []⟩]⟩])) "root" = []
    ∧ ∀ r ∈ Importer.flattenAndTransform
          [⟨"s1", "A", "T", [⟨"s2", "B", "T", []⟩]⟩] "root"
          (Importer.buildIdMap [⟨"s1", "A", "T", [⟨"s2", "B", "T", []⟩]⟩]),
        r.ParentId = some "root"
        ∨ ∃ rr, rr ∈ Importer.flattenAndTransform
              [⟨"s1", "A", "T", [⟨"s2", "B", "T", []⟩]⟩] "root"
              (Importer.buildIdMap [⟨"s1", "A", "T", [⟨"s2", "B", "T", []⟩]⟩])
            ∧ r.ParentId = some rr.Id :=
  ⟨(c5_no_orphans [⟨"s1", "A", "T", [⟨"s2", "B", "T", []⟩]⟩] "root").2.1,
   (c5_no_orphans [⟨"s1", "A", "T", [⟨"s2", "B", "T", []⟩]⟩] "root").1⟩

/-- C6: the duplicate phase of the handler.  `n` transformed records of which
`k` are signature-duplicates (against the catalog or an earlier batch record):
with `0 < k < n` the import succeeds with `importedCount = n - k`, the unique
records, no errors, and a warning naming every skipped duplicate; with `k = n`
the import is rejected with the "Nothing to import" error. -/
theorem c6_duplicates (ns : List Importer.PTreeNode) (p : String)
    (ex : List Importer.PTRecord) (w0 : List String)
    (du un : List Importer.PTRecord)
    (hdu : Importer.detectDuplicates
        (Importer.flattenAndTransform ns p (Importer.buildIdMap ns)) ex = (du, un)) :
    un.length + du.length
      = (Importer.flattenAndTransform ns p (Importer.buildIdMap ns)).length
    ∧ (du ≠ [] → un ≠ [] →
        Importer.importSteps ns p ex w0 =
          { success := true, importedCount := un.length, records := un
            errors := [], warnings := w0 ++ [Importer.dupWarning du] })
    ∧ (un = [] → du ≠ [] →
        Importer.importSteps ns p ex w0 =
          { success := false, importedCount := 0, records := []
            errors := ["All records in the file are duplicates. Nothing to import."]
            warnings := w0 ++ [Importer.dupWarning du] }) := by
  have hsteps : ∀ w : List String, Importer.importSteps ns p ex w
      = Importer.dupPhase (Importer.flattenAndTransform ns p (Importer.buildIdMap ns)) ex w := by
    intro w
    rw [Importer.importSteps]
    rw [show Importer.detectOrphans
        (Importer.flattenAndTransform ns p (Importer.buildIdMap ns)) p = [] from
      Importer.flatten_orphans_nil (Importer.buildIdMap ns) ns p]
    simp
  have hlen := Importer.detectDupGo_length (ex.map Importer.buildSignature)
    (Importer.flattenAndTransform ns p (Importer.buildIdMap ns)) []
  rw [show Importer.detectDupGo (ex.map Importer.buildSignature)
      (Importer.flattenAndTransform ns p (Importer.buildIdMap ns)) []
      = (du, un) from hdu] at hlen
  refine ⟨by simp at hlen; omega, ?_, ?_⟩
  · intro hd hu
    rw [hsteps w0, Importer.dupPhase, hdu]
    have hd' : 0 < du.length := List.length_pos.mpr hd
    have hu' : ¬(un.length = 0) := by
      intro h0
      exact hu (List.length_eq_zero.mp h0)
    simp [hd', hu']
  · intro hu hd
    rw [hsteps w0, Importer.dupPhase, hdu]
    have hd' : 0 < du.length := List.length_pos.mpr hd
    subst hu
    simp [hd']

/-- C6 witness: two root nodes with the same name/type collapse to one unique
record and one skipped duplicate (`n = 2`, `k = 1`). -/
theorem c6_witness :
    Importer.importSteps [⟨"s1", "N", "T", []⟩, ⟨"s2", "N", "T", []⟩] "root" [] [] =
      { success := true, importedCount := 1
        records := [⟨Importer.freshId 0, "N", "T", some "root"⟩]
        errors := []
        warnings := [Importer.dupWarning [⟨Importer.freshId 1, "N", "T", some "root"⟩]] } := by
  have htr : Importer.flattenAndTransform [⟨"s1", "N", "T", []⟩, ⟨"s2", "N", "T", []⟩] "root"
      (Importer.buildIdMap [⟨"s1", "N", "T", []⟩, ⟨"s2", "N", "T", []⟩])
      = [⟨Importer.freshId 0, "N", "T", some "root"⟩,
         ⟨Importer.freshId 1, "N", "T", some "root"⟩] := by
    simp [Importer.flattenAndTransform, Importer.flattenGo, Importer.buildIdMap,
      Importer.buildIdMapGo]
  have hsig : Importer.buildSignature ⟨Importer.freshId 1, "N", "T", some "root"⟩
      = Importer.buildSignature ⟨Importer.freshId 0, "N", "T", some "root"⟩ := rfl
  have hdu : Importer.detectDuplicates
      (Importer.flattenAndTransform [⟨"s1", "N", "T", []⟩, ⟨"s2", "N", "T", []⟩] "root"
        (Importer.buildIdMap [⟨"s1", "N", "T", []⟩, ⟨"s2", "N", "T", []⟩])) []
      = ([⟨Importer.freshId 1, "N", "T", some "root"⟩],
         [⟨Importer.freshId 0, "N", "T", some "root"⟩]) := by
    rw [htr]
    simp [Importer.detectDuplicates, Importer.detectDupGo, hsig]
  have h := c6_duplicates [⟨"s1", "N", "T", []⟩, ⟨"s2", "N", "T", []⟩] "root" [] [] _ _ hdu
  rw [h.2.1 (by simp) (by simp)]
  rfl

/-- C1 witness: concrete instantiation of the no-op guard. -/
theorem c1_witness :
    Designer.moveNode
        [⟨"a", "A", false, [⟨"c", "C", false, [⟨"d", "D", false, []⟩]⟩]⟩, ⟨"b", "B", false, []⟩]
        "c" "d" Designer.Pos.inside
      = [⟨"a", "A", false, [⟨"c", "C", false, [⟨"d", "D", false, []⟩]⟩]⟩, ⟨"b", "B", false, []⟩] :=
  (c1_moveNode_guard _ "c" "d" Designer.Pos.inside).2
    (by simp [Designer.forestIds])
    (by simp [Designer.subtreeIds, Designer.findNode, Designer.forestIds])

namespace MaaErp

theorem pass2_go_fst (p : String) :
    ∀ (ts : List PayanarssType) (acc : (String → List PayanarssType) × List PayanarssType),
      (List.foldl pass2Step acc ts).1 p
        = acc.1 p ++ ts.filter (fun t => !decide (t.Id = t.ParentId) && decide (t.ParentId = p)) := by
  intro ts
  induction ts with
  | nil => intro acc; simp
  | cons t ts ih =>
    intro acc
    rw [List.foldl_cons, ih]
    by_cases hroot : t.Id = t.ParentId
    · simp [pass2Step, hroot, List.filter_cons]
    · by_cases hp : t.ParentId = p
      · subst hp
        simp [pass2Step, hroot, List.filter_cons]
      · simp [pass2Step, hroot, List.filter_cons, hp, Ne.symm hp]

theorem pass2_go_snd :
    ∀ (ts : List PayanarssType) (acc : (String → List PayanarssType) × List PayanarssType),
      (List.foldl pass2Step acc ts).2
        = acc.2 ++ ts.filter (fun t => decide (t.Id = t.ParentId)) := by
  intro ts
  induction ts with
  | nil => intro acc; simp
  | cons t ts ih =>
    intro acc
    rw [List.foldl_cons, ih]
    by_cases hroot : t.Id = t.ParentId
    · simp [pass2Step, hroot, List.filter_cons]
    · simp [pass2Step, hroot, List.filter_cons]

theorem pass2_fst (types : List PayanarssType) (p : String) :
    (pass2 types).1 p = childrenOfL types p := by
  simp [pass2, childrenOfL, pass2_go_fst]

theorem pass2_fn (types : List PayanarssType) : (pass2 types).1 = childrenOfL types :=
  funext (pass2_fst types)

theorem pass2_snd (types : List PayanarssType) :
    (pass2 types).2 = types.filter (fun t => decide (t.Id = t.ParentId)) := by
  simp [pass2, pass2_go_snd]

theorem findById_mem {types : List PayanarssType} {i : String} {t : PayanarssType}
    (h : findById types i = some t) : t ∈ types ∧ t.Id = i := by
  refine ⟨List.mem_of_find?_eq_some h, ?_⟩
  have := List.find?_some h
  simpa using this

theorem findById_of_mem {types : List PayanarssType}
    (hU : (types.map PayanarssType.Id).Nodup) {t : PayanarssType} (ht : t ∈ types) :
    findById types t.Id = some t := by
  induction types with
  | nil => cases ht
  | cons s ts ih =>
    rw [List.map_cons, List.nodup_cons] at hU
    rcases List.mem_cons.1 ht with rfl | hmem
    · simp [findById]
    · have hne : ¬ (s.Id = t.Id) :=
        fun he => hU.1 (he ▸ List.mem_map_of_mem PayanarssType.Id hmem)
      have hstep : findById (s :: ts) t.Id = findById ts t.Id := by
        simp [findById, List.find?_cons, hne]
      rw [hstep]
      exact ih hU.2 hmem

theorem id_inj {types : List PayanarssType}
    (hU : (types.map PayanarssType.Id).Nodup) {t s : PayanarssType}
    (ht : t ∈ types) (hs : s ∈ types) (h : t.Id = s.Id) : t = s := by
  have h1 := findById_of_mem hU ht
  have h2 := findById_of_mem hU hs
  rw [h, h2] at h1
  exact (Option.some.inj h1).symm

theorem sum_map_add {α : Type} (f g : α → Nat) (l : List α) :
    (l.map (fun a => f a + g a)).sum = (l.map f).sum + (l.map g).sum := by
  induction l with
  | nil => simp
  | cons a l ih => simp [ih]; omega

theorem sum_swap {α β : Type} (f : α → β → Nat) (l1 : List α) (l2 : List β) :
    (l1.map (fun a => (l2.map (f a)).sum)).sum
      = (l2.map (fun b => (l1.map (fun a => f a b)).sum)).sum := by
  induction l1 with
  | nil => simp
  | cons a l1 ih =>
    simp only [List.map_cons, List.sum_cons, ih]
    rw [sum_map_add]

theorem countP_eq_sum_ind {α : Type} (p : α → Bool) (l : List α) :
    l.countP p = (l.map (fun a => if p a then (1 : Nat) else 0)).sum := by
  induction l with
  | nil => simp
  | cons a l ih =>
    by_cases h : p a <;> simp [List.countP_cons, h, ih] <;> omega

theorem sum_ind_zero {α : Type} (p : α → Bool) :
    ∀ l : List α, (∀ a ∈ l, p a = false) →
      (l.map (fun a => if p a then (1 : Nat) else 0)).sum = 0 := by
  intro l
  induction l with
  | nil => intro _; simp
  | cons a l ih =>
    intro h
    simp [h a (List.mem_cons_self a l), ih (fun b hb => h b (List.mem_cons_of_mem a hb))]

theorem sum_ind_one {α : Type} (p : α → Bool) :
    ∀ l : List α, l.Nodup → ∀ c0 : α, c0 ∈ l → p c0 = true →
      (∀ c ∈ l, p c = true → c = c0) →
      (l.map (fun a => if p a then (1 : Nat) else 0)).sum = 1 := by
  intro l
  induction l with
  | nil => intro _ c0 h0; cases h0
  | cons a l ih =>
    intro hnd c0 h0 hp huniq
    have hnd2 := List.nodup_cons.1 hnd
    rcases List.mem_cons.1 h0 with rfl | hmem
    · have hz : (l.map (fun x => if p x then (1 : Nat) else 0)).sum = 0 := by
        apply sum_ind_zero
        intro b hb
        cases hpb : p b with
        | false => rfl
        | true =>
          exact absurd hb (by rw [huniq b (List.mem_cons_of_mem _ hb) hpb]; exact hnd2.1)
      simp [hp, hz]
    · have ha : p a = false := by
        cases hpa : p a with
        | false => rfl
        | true =>
          have h2 := huniq a (List.mem_cons_self a l) hpa
          exact absurd hmem (h2 ▸ hnd2.1)
      have hrec := ih hnd2.2 c0 hmem hp (fun c hc hpc => huniq c (List.mem_cons_of_mem a hc) hpc)
      simp [ha, hrec]

theorem sum_ind_const_one {α : Type} (l : List α) :
    (l.map (fun _ => (1 : Nat))).sum = l.length := by
  induction l with
  | nil => simp
  | cons a l ih => simp [ih]; omega

end MaaErp

namespace MaaErp

theorem chainF_stable (types : List PayanarssType) (rank : String → Nat)
    (hR1 : ∀ t ∈ types, t.Id ≠ t.ParentId → rank t.ParentId < rank t.Id) :
    ∀ (r : Nat) (m : PayanarssType), m ∈ types → rank m.Id < r →
      ∀ f1 f2, rank m.Id ≤ f1 → rank m.Id ≤ f2 → chainF types f1 m = chainF types f2 m := by
  intro r
  induction r with
  | zero => intro m _ h; omega
  | succ r ih =>
    intro m hm hr f1 f2 h1 h2
    by_cases hroot : m.Id = m.ParentId
    · cases f1 <;> cases f2 <;> simp [chainF, hroot]
    · have hrank := hR1 m hm hroot
      cases f1 with
      | zero => omega
      | succ f1 =>
        cases f2 with
        | zero => omega
        | succ f2 =>
          simp only [chainF, if_neg hroot]
          rcases hfind : findById types m.ParentId with _ | p
          · simp [hfind]
          · simp only [hfind]
            have hpmem := (findById_mem hfind).1
            have hpid := (findById_mem hfind).2
            have hplt : rank p.Id < rank m.Id := by rw [hpid]; exact hrank
            rw [ih p hpmem (by omega) f1 f2 (by omega) (by omega)]

theorem chainF_stable' (types : List PayanarssType) (rank : String → Nat)
    (hR1 : ∀ t ∈ types, t.Id ≠ t.ParentId → rank t.ParentId < rank t.Id)
    {m : PayanarssType} (hm : m ∈ types) {f1 f2 : Nat}
    (h1 : rank m.Id ≤ f1) (h2 : rank m.Id ≤ f2) :
    chainF types f1 m = chainF types f2 m :=
  chainF_stable types rank hR1 (rank m.Id + 1) m hm (Nat.lt_succ_self _) f1 f2 h1 h2

theorem chain_rank_bound (types : List PayanarssType) (rank : String → Nat)
    (hR1 : ∀ t ∈ types, t.Id ≠ t.ParentId → rank t.ParentId < rank t.Id) :
    ∀ (r : Nat) (m : PayanarssType), m ∈ types → rank m.Id < r →
      ∀ f x, x ∈ chainF types f m → rank x < rank m.Id := by
  intro r
  induction r with
  | zero => intro m _ h; omega
  | succ r ih =>
    intro m hm hr f x hx
    cases f with
    | zero => simp [chainF] at hx
    | succ f =>
      by_cases hroot : m.Id = m.ParentId
      · simp [chainF, hroot] at hx
      · have hrank := hR1 m hm hroot
        simp only [chainF, if_neg hroot, List.mem_cons] at hx
        rcases hx with rfl | hx
        · exact hrank
        · rcases hfind : findById types m.ParentId with _ | p
          · simp [hfind] at hx
          · simp only [hfind] at hx
            have hpmem := (findById_mem hfind).1
            have hpid := (findById_mem hfind).2
            have hb := ih p hpmem (by rw [hpid]; omega) f x hx
            rw [hpid] at hb
            omega

theorem chain_rank_bound' (types : List PayanarssType) (rank : String → Nat)
    (hR1 : ∀ t ∈ types, t.Id ≠ t.ParentId → rank t.ParentId < rank t.Id)
    {m : PayanarssType} (hm : m ∈ types) {f : Nat} {x : String}
    (hx : x ∈ chainF types f m) : rank x < rank m.Id :=
  chain_rank_bound types rank hR1 (rank m.Id + 1) m hm (Nat.lt_succ_self _) f x hx

theorem chain_head (types : List PayanarssType) {m : PayanarssType}
    (hroot : m.Id ≠ m.ParentId) (f : Nat) (hf : 1 ≤ f) :
    m.ParentId ∈ chainF types f m := by
  cases f with
  | zero => omega
  | succ f => simp [chainF, hroot]

theorem chain_trans (types : List PayanarssType) (rank : String → Nat) (B : Nat)
    (hR1 : ∀ t ∈ types, t.Id ≠ t.ParentId → rank t.ParentId < rank t.Id)
    (hRB : ∀ t ∈ types, rank t.Id < B) :
    ∀ (r : Nat) (m : PayanarssType), m ∈ types → rank m.Id < r →
      ∀ j nj x, j ∈ chainF types B m → findById types j = some nj →
        x ∈ chainF types B nj → x ∈ chainF types B m := by
  intro r
  induction r with
  | zero => intro m _ h; omega
  | succ r ih =>
    intro m hm hr j nj x hj hfindj hx
    have hmB : rank m.Id < B := hRB m hm
    obtain ⟨B', rfl⟩ : ∃ B', B = B' + 1 := ⟨B - 1, by omega⟩
    by_cases hroot : m.Id = m.ParentId
    · simp [chainF, hroot] at hj
    · simp only [chainF, if_neg hroot, List.mem_cons] at hj ⊢
      rcases hfind : findById types m.ParentId with _ | p
      · simp [hfind] at hj
        rw [hj, hfind] at hfindj
        cases hfindj
      · simp only [hfind] at hj ⊢
        have hpmem := (findById_mem hfind).1
        have hpid := (findById_mem hfind).2
        have hplt : rank p.Id < rank m.Id := by rw [hpid]; exact hR1 m hm hroot
        have hstab : chainF types B' p = chainF types (B' + 1) p :=
          chainF_stable' types rank hR1 hpmem (by omega) (by omega)
        rcases hj with rfl | hj
        · have hnjp : nj = p := by
            rw [hfind] at hfindj
            exact (Option.some.inj hfindj).symm
          right
          rw [hstab, ← hnjp]
          exact hx
        · right
          rw [hstab] at hj
          rw [hstab]
          exact ih p hpmem (by omega) j nj x hj hfindj hx

end MaaErp

namespace MaaErp

theorem sibling_not_in_chain (types : List PayanarssType) (rank : String → Nat) (B : Nat)
    (hR1 : ∀ t ∈ types, t.Id ≠ t.ParentId → rank t.ParentId < rank t.Id)
    (hRB : ∀ t ∈ types, rank t.Id < B)
    {c c' : PayanarssType} (hc : c ∈ types) (hc' : c' ∈ types)
    (hpp : c'.ParentId = c.ParentId)
    (hcr : c.Id ≠ c.ParentId) (hc'r : c'.Id ≠ c'.ParentId) :
    c'.Id ∉ chainF types B c := by
  intro hin
  have hcB : rank c.Id < B := hRB c hc
  obtain ⟨B', rfl⟩ : ∃ B', B = B' + 1 := ⟨B - 1, by omega⟩
  simp only [chainF, if_neg hcr, List.mem_cons] at hin
  rcases hin with heq | hin
  · exact hc'r (heq.trans hpp.symm)
  · rcases hfind : findById types c.ParentId with _ | n
    · simp [hfind] at hin
    · simp only [hfind] at hin
      have hnmem := (findById_mem hfind).1
      have hnid := (findById_mem hfind).2
      have hb : rank c'.Id < rank n.Id := chain_rank_bound' types rank hR1 hnmem hin
      have hgt := hR1 c' hc' hc'r
      rw [hnid, ← hpp] at hb
      omega

theorem cover_exists (types : List PayanarssType) (rank : String → Nat) (B : Nat)
    (hR1 : ∀ t ∈ types, t.Id ≠ t.ParentId → rank t.ParentId < rank t.Id)
    (hRB : ∀ t ∈ types, rank t.Id < B) :
    ∀ (r : Nat) (m : PayanarssType), m ∈ types → rank m.Id < r →
      ∀ i, i ∈ chainF types B m →
        ∃ c, c ∈ types ∧ c.ParentId = i ∧ c.Id ≠ c.ParentId
          ∧ (m = c ∨ c.Id ∈ chainF types B m) := by
  intro r
  induction r with
  | zero => intro m _ h; omega
  | succ r ih =>
    intro m hm hr i hi
    have hmB : rank m.Id < B := hRB m hm
    obtain ⟨B', rfl⟩ : ∃ B', B = B' + 1 := ⟨B - 1, by omega⟩
    by_cases hroot : m.Id = m.ParentId
    · simp [chainF, hroot] at hi
    · simp only [chainF, if_neg hroot, List.mem_cons] at hi
      rcases hi with rfl | hi
      · exact ⟨m, hm, rfl, hroot, Or.inl rfl⟩
      · rcases hfind : findById types m.ParentId with _ | p
        · simp [hfind] at hi
        · simp only [hfind] at hi
          have hpmem := (findById_mem hfind).1
          have hpid := (findById_mem hfind).2
          have hplt : rank p.Id < rank m.Id := by rw [hpid]; exact hR1 m hm hroot
          have hstab : chainF types B' p = chainF types (B' + 1) p :=
            chainF_stable' types rank hR1 hpmem (by omega) (by omega)
          rw [hstab] at hi
          obtain ⟨c, hcmem, hcp, hcr, hcov⟩ := ih p hpmem (by omega) i hi
          refine ⟨c, hcmem, hcp, hcr, Or.inr ?_⟩
          simp only [chainF, if_neg hroot, hfind, List.mem_cons]
          rcases hcov with rfl | hcid
          · exact Or.inl hpid
          · right
            rw [hstab]
            exact hcid

theorem cover_unique (types : List PayanarssType) (rank : String → Nat) (B : Nat)
    (hU : (types.map PayanarssType.Id).Nodup)
    (hR1 : ∀ t ∈ types, t.Id ≠ t.ParentId → rank t.ParentId < rank t.Id)
    (hRB : ∀ t ∈ types, rank t.Id < B) :
    ∀ (r : Nat) (m : PayanarssType), m ∈ types → rank m.Id < r →
      ∀ i (c c' : PayanarssType), c ∈ types → c.ParentId = i → c.Id ≠ c.ParentId →
        c' ∈ types → c'.ParentId = i → c'.Id ≠ c'.ParentId →
        (m = c ∨ c.Id ∈ chainF types B m) → (m = c' ∨ c'.Id ∈ chainF types B m) →
        c = c' := by
  intro r
  induction r with
  | zero => intro m _ h; omega
  | succ r ih =>
    intro m hm hr i c c' hc hcp hcr hc' hc'p hc'r hcov hcov'
    have hpp : c'.ParentId = c.ParentId := by rw [hcp, hc'p]
    rcases hcov with rfl | hcid
    · rcases hcov' with rfl | hc'id
      · rfl
      · exact absurd hc'id (sibling_not_in_chain types rank B hR1 hRB hc hc' hpp hcr hc'r)
    · rcases hcov' with rfl | hc'id
      · exact absurd hcid
          (sibling_not_in_chain types rank B hR1 hRB hc' hc hpp.symm hc'r hcr)
      · have hmB : rank m.Id < B := hRB m hm
        obtain ⟨B', rfl⟩ : ∃ B', B = B' + 1 := ⟨B - 1, by omega⟩
        by_cases hroot : m.Id = m.ParentId
        · simp [chainF, hroot] at hcid
        · simp only [chainF, if_neg hroot, List.mem_cons] at hcid hc'id
          rcases hfind : findById types m.ParentId with _ | p
          · simp only [hfind] at hcid hc'id
            simp at hcid hc'id
            exact id_inj hU hc hc' (hcid.trans hc'id.symm)
          · simp only [hfind] at hcid hc'id
            have hpmem := (findById_mem hfind).1
            have hpid := (findById_mem hfind).2
            have hplt : rank p.Id < rank m.Id := by rw [hpid]; exact hR1 m hm hroot
            have hstab : chainF types B' p = chainF types (B' + 1) p :=
              chainF_stable' types rank hR1 hpmem (by omega) (by omega)
            rcases hcid with hceq | hcid <;> rcases hc'id with hc'eq | hc'id
            · exact id_inj hU hc hc' (hceq.trans hc'eq.symm)
            · have hpc : p = c := id_inj hU hpmem hc (hpid.trans hceq.symm)
              rw [hstab, hpc] at hc'id
              exact absurd hc'id
                (sibling_not_in_chain types rank (B' + 1) hR1 hRB hc hc' hpp hcr hc'r)
            · have hpc' : p = c' := id_inj hU hpmem hc' (hpid.trans hc'eq.symm)
              rw [hstab, hpc'] at hcid
              exact absurd hcid
                (sibling_not_in_chain types rank (B' + 1) hR1 hRB hc' hc hpp.symm hc'r hcr)
            · rw [hstab] at hcid hc'id
              exact ih p hpmem (by omega) i c c' hc hcp hcr hc' hc'p hc'r
                (Or.inr hcid) (Or.inr hc'id)

end MaaErp

namespace MaaErp

theorem sum_map_one_add {α : Type} (f : α → Nat) (l : List α) :
    (l.map (fun a => 1 + f a)).sum = l.length + (l.map f).sum := by
  induction l with
  | nil => simp
  | cons a l ih => simp [ih]; omega

theorem childrenOfL_mem (types : List PayanarssType) (i : String) (c : PayanarssType) :
    c ∈ childrenOfL types i ↔ c ∈ types ∧ c.Id ≠ c.ParentId ∧ c.ParentId = i := by
  simp [childrenOfL, List.mem_filter]

theorem countP_partition (types : List PayanarssType) (rank : String → Nat) (B : Nat)
    (hU : (types.map PayanarssType.Id).Nodup)
    (hR1 : ∀ t ∈ types, t.Id ≠ t.ParentId → rank t.ParentId < rank t.Id)
    (hRB : ∀ t ∈ types, rank t.Id < B) (i : String) :
    ancDescCount types B i
      = (childrenOfL types i).length
        + ((childrenOfL types i).map (fun c => ancDescCount types B c.Id)).sum := by
  have hnd : types.Nodup := hU.of_map
  have hndc : (childrenOfL types i).Nodup := hnd.filter _
  have hper : ∀ m ∈ types,
      (if decide (i ∈ chainF types B m) then (1 : Nat) else 0)
        = ((childrenOfL types i).map
            (fun c => if decide (m = c) || decide (c.Id ∈ chainF types B m)
              then (1 : Nat) else 0)).sum := by
    intro m hm
    by_cases hmem : i ∈ chainF types B m
    · obtain ⟨c0, hc0mem, hc0p, hc0r, hc0cov⟩ :=
        cover_exists types rank B hR1 hRB (rank m.Id + 1) m hm (Nat.lt_succ_self _) i hmem
      rw [if_pos (by simpa using hmem)]
      have hone := sum_ind_one
        (fun c => decide (m = c) || decide (c.Id ∈ chainF types B m))
        (childrenOfL types i) hndc c0
        ((childrenOfL_mem types i c0).2 ⟨hc0mem, hc0r, hc0p⟩)
        (by simpa using hc0cov)
        (fun c hc hpc => by
          obtain ⟨hcm, hcr, hcp⟩ := (childrenOfL_mem types i c).1 hc
          have hpc' : m = c ∨ c.Id ∈ chainF types B m := by simpa using hpc
          exact cover_unique types rank B hU hR1 hRB (rank m.Id + 1) m hm
            (Nat.lt_succ_self _) i c c0 hcm hcp hcr hc0mem hc0p hc0r hpc' hc0cov)
      rw [hone]
    · rw [if_neg (by simpa using hmem)]
      have hzero := sum_ind_zero
        (fun c => decide (m = c) || decide (c.Id ∈ chainF types B m))
        (childrenOfL types i)
        (by
          intro c hc
          obtain ⟨hcm, hcr, hcp⟩ := (childrenOfL_mem types i c).1 hc
          have h1 : ¬ (m = c) := by
            rintro rfl
            apply hmem
            rw [← hcp]
            exact chain_head types hcr B (by have := hRB m hm; omega)
          have h2 : ¬ (c.Id ∈ chainF types B m) := by
            intro hcid
            apply hmem
            have hfc : findById types c.Id = some c := findById_of_mem hU hcm
            have hheadc : i ∈ chainF types B c := by
              rw [← hcp]
              exact chain_head types hcr B (by have := hRB c hcm; omega)
            exact chain_trans types rank B hR1 hRB (rank m.Id + 1) m hm
              (Nat.lt_succ_self _) c.Id c i hcid hfc hheadc
          simp [h1, h2])
      rw [hzero]
  have hsplit : ∀ c ∈ childrenOfL types i,
      (types.map (fun m => if decide (m = c) || decide (c.Id ∈ chainF types B m)
        then (1 : Nat) else 0)).sum
        = 1 + ancDescCount types B c.Id := by
    intro c hc
    obtain ⟨hcm, hcr, hcp⟩ := (childrenOfL_mem types i c).1 hc
    have hpt : ∀ m ∈ types,
        (if decide (m = c) || decide (c.Id ∈ chainF types B m) then (1 : Nat) else 0)
          = (if decide (m = c) then (1 : Nat) else 0)
            + (if decide (c.Id ∈ chainF types B m) then (1 : Nat) else 0) := by
      intro m hm
      by_cases h1 : m = c
      · have h2 : ¬ (c.Id ∈ chainF types B c) := by
          intro hself
          have := chain_rank_bound' types rank hR1 hcm hself
          omega
        simp [h1, h2]
      · simp [h1]
    rw [List.map_congr_left hpt, sum_map_add]
    have hcount1 : (types.map (fun m => if decide (m = c) then (1 : Nat) else 0)).sum = 1 :=
      sum_ind_one (fun m => decide (m = c)) types hnd c hcm (by simp)
        (fun x hx hxc => by simpa using hxc)
    rw [hcount1, ancDescCount, countP_eq_sum_ind]
  calc ancDescCount types B i
      = (types.map (fun m => if decide (i ∈ chainF types B m) then (1 : Nat) else 0)).sum :=
        countP_eq_sum_ind _ _
    _ = (types.map (fun m => ((childrenOfL types i).map
          (fun c => if decide (m = c) || decide (c.Id ∈ chainF types B m)
            then (1 : Nat) else 0)).sum)).sum :=
        congrArg List.sum (List.map_congr_left hper)
    _ = ((childrenOfL types i).map (fun c => (types.map
          (fun m => if decide (m = c) || decide (c.Id ∈ chainF types B m)
            then (1 : Nat) else 0)).sum)).sum := sum_swap _ _ _
    _ = ((childrenOfL types i).map (fun c => 1 + ancDescCount types B c.Id)).sum :=
        congrArg List.sum (List.map_congr_left hsplit)
    _ = (childrenOfL types i).length
          + ((childrenOfL types i).map (fun c => ancDescCount types B c.Id)).sum :=
        sum_map_one_add _ _

end MaaErp

namespace MaaErp

theorem countCS_correct (types : List PayanarssType) (rank : String → Nat) (B : Nat)
    (fuel : Nat)
    (hD : ∀ (memo : List (String × Nat)) (i : String), MemOK types B memo →
      (∃ t, t ∈ types ∧ t.Id = i) → B ≤ rank i + fuel →
      ∃ memo', countDescendantsF (childrenOfL types) fuel memo i
          = some (ancDescCount types B i, memo')
        ∧ MemOK types B memo'
        ∧ (∀ k, (memoLookup memo k).isSome = true → (memoLookup memo' k).isSome = true)
        ∧ (memoLookup memo' i).isSome = true) :
    ∀ (cs : List PayanarssType) (memo : List (String × Nat)), MemOK types B memo →
      (∀ c ∈ cs, c ∈ types ∧ B ≤ rank c.Id + fuel) →
      ∃ memo', countChildrenSum (childrenOfL types) fuel memo cs
          = some ((cs.map (fun c => ancDescCount types B c.Id)).sum, memo')
        ∧ MemOK types B memo'
        ∧ (∀ k, (memoLookup memo k).isSome = true → (memoLookup memo' k).isSome = true) := by
  intro cs
  induction cs with
  | nil =>
    intro memo hOK _
    refine ⟨memo, ?_, hOK, fun k hk => hk⟩
    simp [countChildrenSum]
  | cons c cs ihcs =>
    intro memo hOK hcond
    obtain ⟨hcm, hcf⟩ := hcond c (List.mem_cons_self c cs)
    obtain ⟨memo1, hD1, hOK1, hDP1, _⟩ := hD memo c.Id hOK ⟨c, hcm, rfl⟩ hcf
    obtain ⟨memo2, hCS2, hOK2, hDP2⟩ :=
      ihcs memo1 hOK1 (fun x hx => hcond x (List.mem_cons_of_mem c hx))
    refine ⟨memo2, ?_, hOK2, fun k hk => hDP2 k (hDP1 k hk)⟩
    rw [countChildrenSum.eq_def]
    simp only [hD1, hCS2, List.map_cons, List.sum_cons]

theorem countD_correct (types : List PayanarssType) (rank : String → Nat) (B : Nat)
    (hU : (types.map PayanarssType.Id).Nodup)
    (hR1 : ∀ t ∈ types, t.Id ≠ t.ParentId → rank t.ParentId < rank t.Id)
    (hRB : ∀ t ∈ types, rank t.Id < B) :
    ∀ (fuel : Nat) (memo : List (String × Nat)) (i : String), MemOK types B memo →
      (∃ t, t ∈ types ∧ t.Id = i) → B ≤ rank i + fuel →
      ∃ memo', countDescendantsF (childrenOfL types) fuel memo i
          = some (ancDescCount types B i, memo')
        ∧ MemOK types B memo'
        ∧ (∀ k, (memoLookup memo k).isSome = true → (memoLookup memo' k).isSome = true)
        ∧ (memoLookup memo' i).isSome = true := by
  intro fuel
  induction fuel with
  | zero =>
    intro memo i hOK hex hB
    obtain ⟨t, ht, hti⟩ := hex
    have := hRB t ht
    rw [hti] at this
    omega
  | succ fuel ih =>
    intro memo i hOK hex hB
    rcases hlk : memoLookup memo i with _ | v
    · have hchild_cond : ∀ c ∈ childrenOfL types i, c ∈ types ∧ B ≤ rank c.Id + fuel := by
        intro c hc
        obtain ⟨hcm, hcr, hcp⟩ := (childrenOfL_mem types i c).1 hc
        refine ⟨hcm, ?_⟩
        have hlt := hR1 c hcm hcr
        rw [hcp] at hlt
        omega
      obtain ⟨memo1, hcs, hOK1, hDP1⟩ :=
        countCS_correct types rank B fuel ih (childrenOfL types i) memo hOK hchild_cond
      refine ⟨memoInsert memo1 i ((childrenOfL types i).length
          + ((childrenOfL types i).map (fun c => ancDescCount types B c.Id)).sum),
        ?_, ?_, ?_, ?_⟩
      · rw [countDescendantsF.eq_def]
        simp only [hlk, hcs]
        rw [countP_partition types rank B hU hR1 hRB i]
      · intro k v hkv
        by_cases hik : i = k
        · subst hik
          simp [memoInsert, memoLookup] at hkv
          have hpart := countP_partition types rank B hU hR1 hRB i
          omega
        · simp only [memoInsert, memoLookup, if_neg hik] at hkv
          exact hOK1 k v hkv
      · intro k hk
        by_cases hik : i = k
        · simp [memoInsert, memoLookup, hik]
        · simp only [memoInsert, memoLookup, if_neg hik]
          exact hDP1 k hk
      · simp [memoInsert, memoLookup]
    · refine ⟨memo, ?_, hOK, fun k hk => hk, ?_⟩
      · rw [countDescendantsF.eq_def]
        simp only [hlk]
        rw [hOK i v hlk]
      · rw [hlk]
        rfl

end MaaErp

namespace MaaErp

theorem pass3_go (types : List PayanarssType) (rank : String → Nat) (B fuel : Nat)
    (hU : (types.map PayanarssType.Id).Nodup)
    (hR1 : ∀ t ∈ types, t.Id ≠ t.ParentId → rank t.ParentId < rank t.Id)
    (hRB : ∀ t ∈ types, rank t.Id < B)
    (hfuel : B ≤ fuel) :
    ∀ (ts : List PayanarssType) (memo : List (String × Nat)),
      (∀ t ∈ ts, t ∈ types) → MemOK types B memo →
      ∃ memoF,
        List.foldlM
          (fun memo t =>
            match countDescendantsF (childrenOfL types) fuel memo t.Id with
            | none => none
            | some (_, memo1) => some memo1)
          memo ts = some memoF
        ∧ MemOK types B memoF
        ∧ (∀ k, (memoLookup memo k).isSome = true → (memoLookup memoF k).isSome = true)
        ∧ (∀ t ∈ ts, (memoLookup memoF t.Id).isSome = true) := by
  intro ts
  induction ts with
  | nil =>
    intro memo _ hOK
    exact ⟨memo, rfl, hOK, fun k hk => hk, by simp⟩
  | cons t ts ihts =>
    intro memo hts hOK
    obtain ⟨memo1, hD1, hOK1, hDP1, hsome1⟩ :=
      countD_correct types rank B hU hR1 hRB fuel memo t.Id hOK
        ⟨t, hts t (List.mem_cons_self t ts), rfl⟩ (by omega)
    obtain ⟨memoF, hfold, hOKF, hDPF, hallF⟩ :=
      ihts memo1 (fun x hx => hts x (List.mem_cons_of_mem t hx)) hOK1
    refine ⟨memoF, ?_, hOKF, fun k hk => hDPF k (hDP1 k hk), ?_⟩
    · rw [List.foldlM_cons]
      simp only [hD1]
      exact hfold
    · intro x hx
      rcases List.mem_cons.1 hx with rfl | hx2
      · exact hDPF x.Id hsome1
      · exact hallF x hx2

/-- C7: for every store whose nodes have pairwise distinct ids and whose
parent relation is acyclic — witnessed by a rank function that strictly
decreases from child to parent and is bounded by `B` — `buildHierarchyIndex`
terminates (the embedding returns `some` for every fuel ≥ `B`) and the
resulting index satisfies: every non-root node `n` is an element of
`childrenOf[n.ParentId]`; every self-referencing node is in `roots`; and
`descendantCount[n.Id]` is the number of store elements that have `n` as a
strict ancestor (an element of their parent chain). -/
theorem c7_index_correct (types : List PayanarssType) (rank : String → Nat) (B fuel : Nat)
    (hU : (types.map PayanarssType.Id).Nodup)
    (hR1 : ∀ t ∈ types, t.Id ≠ t.ParentId → rank t.ParentId < rank t.Id)
    (hRB : ∀ t ∈ types, rank t.Id < B)
    (hfuel : B ≤ fuel) :
    ∃ idx, buildHierarchyIndexF types fuel = some idx
      ∧ (∀ n ∈ types, n.Id ≠ n.ParentId → n ∈ idx.childrenOf n.ParentId)
      ∧ (∀ n ∈ types, n.Id = n.ParentId → n ∈ idx.roots)
      ∧ (∀ n ∈ types, idx.descendantCount n.Id = some (ancDescCount types B n.Id)) := by
  obtain ⟨memoF, hfold, hOKF, _, hallF⟩ :=
    pass3_go types rank B fuel hU hR1 hRB hfuel types [] (fun t ht => ht)
      (fun k v hkv => by simp [memoLookup] at hkv)
  have hfold' : pass3 (childrenOfL types) types fuel = some memoF := by
    unfold pass3
    exact hfold
  have hpass3 : pass3 (pass2 types).1 types fuel = some memoF := by
    rw [pass2_fn]
    exact hfold'
  refine ⟨{ byId := pass1 types, childrenOf := (pass2 types).1, roots := (pass2 types).2,
            totalCount := types.length, descendantCount := fun j => memoLookup memoF j },
    ?_, ?_, ?_, ?_⟩
  · simp only [buildHierarchyIndexF, hpass3]
  · intro n hn hne
    show n ∈ (pass2 types).1 n.ParentId
    rw [pass2_fst]
    exact (childrenOfL_mem types n.ParentId n).2 ⟨hn, hne, rfl⟩
  · intro n hn heq
    show n ∈ (pass2 types).2
    rw [pass2_snd]
    simp [List.mem_filter, hn, heq]
  · intro n hn
    show memoLookup memoF n.Id = some (ancDescCount types B n.Id)
    obtain ⟨v, hv⟩ := Option.isSome_iff_exists.1 (hallF n hn)
    rw [hv, hOKF n.Id v hv]

/-- C7 witness: the three-node chain `wstore` (root `r`, child `c`,
grandchild `g`) with depth function `wrank` and bound 3. -/
theorem c7_witness :
    ∃ idx, buildHierarchyIndexF wstore 3 = some idx
      ∧ (∀ n ∈ wstore, n.Id ≠ n.ParentId → n ∈ idx.childrenOf n.ParentId)
      ∧ (∀ n ∈ wstore, n.Id = n.ParentId → n ∈ idx.roots)
      ∧ (∀ n ∈ wstore, idx.descendantCount n.Id = some (ancDescCount wstore 3 n.Id)) :=
  c7_index_correct wstore wrank 3 3 (by decide) (by decide) (by decide) (by decide)

end MaaErp
